import Mathlib

/-!
Verification development for the repo-knowledge indexing and retrieval engine.

The definitions below are a shallow embedding of the TypeScript source:
JS numbers that only ever hold integers become Nat, JS floats become Rat,
fallible operations become Option, and external store or filesystem calls
become explicit function parameters or record fields.  Strings are handled
at the character-list level where the source splits or scans them, because
the embedding must stay executable.
-/

/-! ## String utilities -/

/-- Splits a character list at every newline, mirroring JS source.split("\n")
at the character level.  Never returns the empty list. -/
def splitLinesList : List Char → List (List Char)
  | [] => [[]]
  | c :: cs =>
    if c = '\n' then [] :: splitLinesList cs
    else
      match splitLinesList cs with
      | [] => [[c]]
      | l :: ls => (c :: l) :: ls

/-- Mirror of JS source.split("\n"). -/
def splitLines (s : String) : List String :=
  (splitLinesList s.data).map String.mk

/-- Mirror of JS array.join("\n") on a list of lines. -/
def joinLines : List String → String
  | [] => ""
  | [l] => l
  | l :: l2 :: ls => l ++ "\n" ++ joinLines (l2 :: ls)

/-- Models the JS test text.trim().length > 0: the text contains at least one
non-whitespace character. -/
def hasContent (s : String) : Bool :=
  s.data.any (fun c => !c.isWhitespace)

/-- Mirror of JS array.slice(a, b) (0-based, end exclusive, clamped). -/
def sliceList {α : Type} (l : List α) (a b : ℕ) : List α :=
  (l.drop a).take (b - a)

/-- Splits a character list at every whitespace character, mirroring JS
split(/\s+/) up to empty fragments; every caller filters short tokens out,
which removes the empty fragments either way. -/
def splitWs : List Char → List (List Char)
  | [] => [[]]
  | c :: cs =>
    if c.isWhitespace then [] :: splitWs cs
    else
      match splitWs cs with
      | [] => [[c]]
      | l :: ls => (c :: l) :: ls

/-- Models the JS truthiness test on an optional string: undefined and the
empty string are falsy. -/
def optStrFalsy : Option String → Bool
  | none => true
  | some s => s == ""

/-- estimateTokens from src/utils/token-counter.ts: Math.ceil(text.length / 3.5),
computed exactly on naturals as ceil(2 len / 7).  (JS measures UTF-16 units,
the embedding counts characters; the two agree on the inputs considered here.) -/
def estimateTokens (text : String) : ℕ :=
  (2 * text.length + 6) / 7

/-! ## Chunker data model (src chunker, lines 1-19) -/

/-- ExtractedSymbol from src/parser/queries/common.ts.  kind is kept as a plain
string tag. -/
structure ExtractedSymbol where
  name : String
  kind : String
  signature : String
  startLine : ℕ
  endLine : ℕ
  startCol : ℕ
  endCol : ℕ
  parentName : Option String
  docstring : Option String
  exported : Bool
  bodyText : String
deriving Repr, DecidableEq

/-- CodeChunk from the chunker. -/
structure CodeChunk where
  chunkIndex : ℕ
  content : String
  startLine : ℕ
  endLine : ℕ
  containedSymbolNames : List String
  tokenCount : ℕ
deriving Repr, DecidableEq

/-- ChunkRegion, the internal region record of the chunker. -/
structure ChunkRegion where
  startLine : ℕ
  endLine : ℕ
  text : String
  symbolNames : List String
  isSymbol : Bool
deriving Repr, DecidableEq

/-- buildChunkContent (chunker, lines 263-275): the context header followed by
the code. -/
def buildChunkContent (filePath code : String) (startLine endLine : ℕ)
    (symbolNames : List String) : String :=
  let header := "// File: " ++ filePath ++ " | Lines: " ++ toString startLine ++ "-"
    ++ toString endLine
  let header :=
    if 0 < symbolNames.length then
      header ++ " | Symbols: " ++ String.intercalate ", " symbolNames
    else header
  header ++ "\n" ++ code

/-- The inner accumulation loop shared by splitRegion (lines 180-188) and
chunkByLines (lines 230-238): starting from the already consumed text cur,
keep appending lines while the token estimate stays within maxTokens; returns
the accumulated text and the number of additional lines consumed.  The caller
consumes the first line of each slice before this loop runs, which mirrors the
lineEnd > lineStart guard in the source. -/
def fillMore (maxTokens : ℕ) (cur : String) : List String → String × ℕ
  | [] => (cur, 0)
  | l :: rest =>
    let next := if cur = "" then l else cur ++ "\n" ++ l
    if maxTokens < estimateTokens next then (cur, 0)
    else
      let r := fillMore maxTokens next rest
      (r.1, r.2 + 1)

/-- The outer line-slicing loop shared by splitRegion (lines 175-211) and
chunkByLines (lines 226-258): emits successive chunks, each filled greedily by
fillMore.  baseLine is the absolute line number corresponding to offset 0 of
the region, so a chunk beginning at offset lineStart starts at absolute line
baseLine + lineStart. -/
def sliceChunks (maxTokens : ℕ) (filePath : String) (symbolNames : List String)
    (baseLine : ℕ) : ℕ → ℕ → List String → List CodeChunk
  | _, _, [] => []
  | chunkIndex, lineStart, l :: rest =>
    let fm := fillMore maxTokens l rest
    let n := fm.2 + 1
    let absStart := baseLine + lineStart
    let absEnd := baseLine + lineStart + n - 1
    let content := buildChunkContent filePath fm.1 absStart absEnd symbolNames
    { chunkIndex := chunkIndex, content := content, startLine := absStart,
      endLine := absEnd, containedSymbolNames := symbolNames,
      tokenCount := estimateTokens content } ::
      sliceChunks maxTokens filePath symbolNames baseLine (chunkIndex + 1)
        (lineStart + n) (rest.drop fm.2)
termination_by _ _ ls => ls.length
decreasing_by simp [List.length_drop]; omega

/-- splitRegion from the chunker (lines 164-214). -/
def splitRegion (region : ChunkRegion) (filePath : String) (maxTokens : ℕ)
    (startIndex : ℕ) : List CodeChunk :=
  sliceChunks maxTokens filePath region.symbolNames region.startLine startIndex 0
    (splitLines region.text)

/-- chunkByLines from the chunker (lines 216-261). -/
def chunkByLines (source filePath : String) (maxTokens : ℕ) : List CodeChunk :=
  sliceChunks maxTokens filePath [] 1 0 0 (splitLines source)

/-- The per-region step of chunkFile (lines 126-159): a region whose token
estimate fits within maxTokens - 20 becomes a single chunk, otherwise it is
split by lines.  The comparison is on integers because the JS effectiveMax can
be negative. -/
def regionChunks (filePath : String) (maxTokens : ℕ) (region : ChunkRegion)
    (startIndex : ℕ) : List CodeChunk :=
  if (estimateTokens region.text : ℤ) ≤ (maxTokens : ℤ) - 20 then
    let content := buildChunkContent filePath region.text region.startLine
      region.endLine region.symbolNames
    [{ chunkIndex := startIndex, content := content, startLine := region.startLine,
       endLine := region.endLine, containedSymbolNames := region.symbolNames,
       tokenCount := estimateTokens content }]
  else
    splitRegion region filePath maxTokens startIndex

/-- The region-to-chunk loop of chunkFile (lines 119-159), threading the running
chunk index. -/
def regionsToChunks (filePath : String) (maxTokens : ℕ) :
    List ChunkRegion → ℕ → List CodeChunk
  | [], _ => []
  | region :: rest, chunkIndex =>
    let cs := regionChunks filePath maxTokens region chunkIndex
    cs ++ regionsToChunks filePath maxTokens rest (chunkIndex + cs.length)

/-- The region construction loop of chunkFile (lines 62-97): alternates gap
regions and symbol regions, skipping symbols that start before the current
line; returns the regions and the final currentLine. -/
def regionsLoop (lines : List String) (symbols : List ExtractedSymbol) :
    List ExtractedSymbol → ℕ → List ChunkRegion × ℕ
  | [], currentLine => ([], currentLine)
  | sym :: rest, currentLine =>
    if sym.startLine < currentLine then regionsLoop lines symbols rest currentLine
    else
      let gap : List ChunkRegion :=
        if currentLine < sym.startLine then
          let gapText := joinLines (sliceList lines (currentLine - 1) (sym.startLine - 1))
          if hasContent gapText then
            [{ startLine := currentLine, endLine := sym.startLine - 1, text := gapText,
               symbolNames := [], isSymbol := false }]
          else []
        else []
      let symText := joinLines (sliceList lines (sym.startLine - 1) sym.endLine)
      let childNames := (symbols.filter (fun s => s.parentName = some sym.name)).map
        (fun s => s.name)
      let r := regionsLoop lines symbols rest (sym.endLine + 1)
      (gap ++ { startLine := sym.startLine, endLine := sym.endLine, text := symText,
                symbolNames := sym.name :: childNames, isSymbol := true } :: r.1, r.2)

/-- The full region sequence of chunkFile (lines 62-111): the loop regions
followed by the trailing region when contentful. -/
def buildRegions (lines : List String) (symbols sortedTopLevel : List ExtractedSymbol) :
    List ChunkRegion :=
  let r := regionsLoop lines symbols sortedTopLevel 1
  let trailing : List ChunkRegion :=
    if r.2 ≤ lines.length then
      let trailingText := joinLines (lines.drop (r.2 - 1))
      if hasContent trailingText then
        [{ startLine := r.2, endLine := lines.length, text := trailingText,
           symbolNames := [], isSymbol := false }]
      else []
    else []
  r.1 ++ trailing

/-- chunkFile from the chunker (lines 26-162). -/
def chunkFile (source filePath : String) (symbols : List ExtractedSymbol)
    (maxTokens : ℕ) : List CodeChunk :=
  let lines := splitLines source
  if lines.length = 0 then []
  else if estimateTokens source ≤ maxTokens then
    let symbolNames := symbols.map (fun s => s.name)
    let content := buildChunkContent filePath source 1 lines.length symbolNames
    [{ chunkIndex := 0, content := content, startLine := 1, endLine := lines.length,
       containedSymbolNames := symbolNames, tokenCount := estimateTokens content }]
  else
    let topLevelSymbols := symbols.filter
      (fun s => optStrFalsy s.parentName || s.kind == "class")
    let sorted := topLevelSymbols.mergeSort (fun a b => a.startLine ≤ b.startLine)
    let regions := buildRegions lines symbols sorted
    if regions = [] then chunkByLines source filePath maxTokens
    else regionsToChunks filePath maxTokens regions 0

/-- Specification-side well-formedness of a region against the line list it
was cut from: 1-based bounds inside the file and text equal to the joined
slice of lines it claims to cover. -/
def regionWithin (lines : List String) (reg : ChunkRegion) : Prop :=
  1 ≤ reg.startLine ∧ reg.startLine ≤ reg.endLine ∧ reg.endLine ≤ lines.length ∧
    reg.text = joinLines (sliceList lines (reg.startLine - 1) reg.endLine)

/-! ## Hasher and diff (src/src/indexer/hasher.ts) -/

/-- DiscoveredFile from file discovery.  The content field models the on-disk
bytes that fs.readFileSync(absolutePath, "utf-8") returns. -/
structure DiscoveredFile where
  absolutePath : String
  relativePath : String
  language : Option String
  sizeBytes : ℕ
  content : String
deriving Repr, DecidableEq

/-- FileDiff from src/src/indexer/hasher.ts. -/
structure FileDiff where
  added : List DiscoveredFile
  modified : List DiscoveredFile
  removed : List String
  unchanged : List String
deriving Repr, DecidableEq

/-- The three buckets a discovered file can fall into. -/
inductive DiffClass where
  | added
  | modified
  | unchanged
deriving Repr, DecidableEq

/-- The per-file branch chain of the computeDiff loop (hasher.ts lines 34-59):
a missing persisted hash (or the falsy empty string) means added; a differing
persisted size means modified without hashing; otherwise the file content is
hashed and compared.  hash abstracts hashContent (SHA-256); the mutation of
the content cache is omitted because it does not influence the
classification. -/
def classifyFile (hash : String → String) (existingHashes : List (String × String))
    (existingSizes : Option (List (String × ℕ))) (f : DiscoveredFile) : DiffClass :=
  match List.lookup f.relativePath existingHashes with
  | none => DiffClass.added
  | some existingHash =>
    if existingHash = "" then DiffClass.added
    else
      let sizeChanged : Bool :=
        match existingSizes with
        | some sizes =>
          match List.lookup f.relativePath sizes with
          | some sz => sz != f.sizeBytes
          | none => false
        | none => false
      if sizeChanged then DiffClass.modified
      else if hash f.content ≠ existingHash then DiffClass.modified
      else DiffClass.unchanged

/-- The classification loop of computeDiff (hasher.ts lines 32-60), written as a
right fold that preserves the push order of the source. -/
def diffLoop (hash : String → String) (existingHashes : List (String × String))
    (existingSizes : Option (List (String × ℕ))) :
    List DiscoveredFile → List DiscoveredFile × List DiscoveredFile × List String
  | [] => ([], [], [])
  | f :: rest =>
    let r := diffLoop hash existingHashes existingSizes rest
    match classifyFile hash existingHashes existingSizes f with
    | DiffClass.added => (f :: r.1, r.2.1, r.2.2)
    | DiffClass.modified => (r.1, f :: r.2.1, r.2.2)
    | DiffClass.unchanged => (r.1, r.2.1, f.relativePath :: r.2.2)

/-- computeDiff from src/src/indexer/hasher.ts (lines 21-71).  The JS map of
persisted hashes is an association list with unique keys; removed collects the
persisted paths missing from the discovered set, in persisted order. -/
def computeDiff (hash : String → String) (discovered : List DiscoveredFile)
    (existingHashes : List (String × String))
    (existingSizes : Option (List (String × ℕ))) : FileDiff :=
  let r := diffLoop hash existingHashes existingSizes discovered
  let seenPaths := discovered.map (fun f => f.relativePath)
  { added := r.1, modified := r.2.1, unchanged := r.2.2,
    removed := (existingHashes.filter (fun kv => kv.1 ∉ seenPaths)).map Prod.fst }

/-! ## Search result data model (src/src/search/hybrid.ts lines 15-24) -/

/-- matchType values of a SearchResult. -/
inductive MatchType where
  | vector
  | keyword
  | symbol
  | graph
deriving Repr, DecidableEq

/-- SearchResult from src/src/search/hybrid.ts.  Scores are exact rationals in
place of JS floats. -/
structure SearchResult where
  filePath : String
  startLine : ℕ
  endLine : ℕ
  content : String
  score : ℚ
  matchType : MatchType
  symbols : List String
  language : String
deriving Repr, DecidableEq

/-! ## Reciprocal rank fusion (src/src/search/reranker.ts lines 12-43) -/

/-- The merge key of reciprocalRankFusion (reranker.ts line 24). -/
def resultKey (r : SearchResult) : String :=
  r.filePath ++ ":" ++ toString r.startLine ++ "-" ++ toString r.endLine

/-- One update of the merged map for a result at a 0-based rank (reranker.ts
lines 23-36).  The insertion-ordered JS Map is an association list: a matching
entry is updated in place, otherwise the new entry is appended at the end. -/
def mergeInsert (k : ℕ) (weight : ℚ) (rank : ℕ) (r : SearchResult) :
    List (String × SearchResult × ℚ) → List (String × SearchResult × ℚ)
  | [] => [(resultKey r, r, weight / ((k : ℚ) + rank + 1))]
  | (key, res, s) :: rest =>
    if resultKey r = key then
      let s2 := s + weight / ((k : ℚ) + rank + 1)
      (key, if res.content.length < r.content.length then { r with score := s2 } else res,
        s2) :: rest
    else (key, res, s) :: mergeInsert k weight rank r rest

/-- The ranked loop over one source (reranker.ts lines 21-38). -/
def rrfFold (k : ℕ) (weight : ℚ) :
    ℕ → List (String × SearchResult × ℚ) → List SearchResult →
    List (String × SearchResult × ℚ)
  | _, m, [] => m
  | rank, m, r :: rest => rrfFold k weight (rank + 1) (mergeInsert k weight rank r m) rest

/-- reciprocalRankFusion from src/src/search/reranker.ts (lines 12-43).  The
final sort models the stable JS sort by descending fused score; the mapped
output overrides each representative score with the accumulated one. -/
def reciprocalRankFusion (sources : List (List SearchResult × ℚ)) (k : ℕ := 60) :
    List SearchResult :=
  let merged := sources.foldl (fun m sw => rrfFold k sw.2 0 m sw.1) []
  (merged.mergeSort (fun a b => b.2.2 ≤ a.2.2)).map (fun e => { e.2.1 with score := e.2.2 })

/-- The 0-based ranks at which a key occurs in one result list, starting from a
given rank offset.  Used only to state properties of the fusion. -/
def occursAt (key : String) : ℕ → List SearchResult → List ℕ
  | _, [] => []
  | rank, r :: rest =>
    if resultKey r = key then rank :: occursAt key (rank + 1) rest
    else occursAt key (rank + 1) rest

/-- Total RRF contribution of one source to a key, starting from a rank offset.
Used only to state properties of the fusion. -/
def sourceScore (k : ℕ) (weight : ℚ) (key : String) : ℕ → List SearchResult → ℚ
  | _, [] => 0
  | rank, r :: rest =>
    (if resultKey r = key then weight / ((k : ℚ) + rank + 1) else 0)
      + sourceScore k weight key (rank + 1) rest

/-- Total fused score of a key over all sources.  Used only to state properties
of the fusion. -/
def fusedScore (k : ℕ) (key : String) : List (List SearchResult × ℚ) → ℚ
  | [] => 0
  | sw :: rest => sourceScore k sw.2 key 0 sw.1 + fusedScore k key rest

/-- Reads the accumulated score of a key from the merged association list. -/
def mergedScore (key : String) : List (String × SearchResult × ℚ) → Option ℚ
  | [] => none
  | e :: rest => if key = e.1 then some e.2.2 else mergedScore key rest

/-! ## Deduplication (src/src/search/reranker.ts lines 48-74) -/

/-- The overlap test of deduplicateResults (reranker.ts lines 58-63) against one
seen (filePath, startLine, endLine) triple. -/
def overlapsTriple (s : String × ℕ × ℕ) (r : SearchResult) : Bool :=
  s.1 == r.filePath && decide (r.startLine ≤ s.2.2) && decide (s.2.1 ≤ r.endLine)

/-- The filter loop of deduplicateResults with the seen list made explicit
(reranker.ts lines 51-73); kept results push their triple onto seen. -/
def dedupGo (seen : List (String × ℕ × ℕ)) : List SearchResult → List SearchResult
  | [] => []
  | r :: rest =>
    if seen.any (fun s => overlapsTriple s r) then dedupGo seen rest
    else r :: dedupGo (seen ++ [(r.filePath, r.startLine, r.endLine)]) rest

/-- deduplicateResults from src/src/search/reranker.ts (lines 48-74). -/
def deduplicateResults (results : List SearchResult) : List SearchResult :=
  dedupGo [] results

/-! ## Token budget enforcement (src/src/search/hybrid.ts lines 201-224) -/

/-- The truncated tail result built by applyTokenBudget (hybrid.ts lines
214-215): the first 3*remaining characters of the content followed by the
truncation marker. -/
def truncatedTail (r : SearchResult) (remaining : ℕ) : SearchResult :=
  { r with content := r.content.take (remaining * 3) ++ "\n// ... (truncated)" }

/-- The budget loop of applyTokenBudget with the running token total as an
explicit accumulator (hybrid.ts lines 205-221). -/
def budgetGo (budget : ℕ) : ℕ → List SearchResult → List SearchResult
  | _, [] => []
  | tokensUsed, r :: rest =>
    let tokens := estimateTokens r.content + 20
    if budget < tokensUsed + tokens then
      let remaining := budget - tokensUsed
      if 100 < remaining then [truncatedTail r remaining]
      else []
    else r :: budgetGo budget (tokensUsed + tokens) rest

/-- applyTokenBudget from src/src/search/hybrid.ts (lines 201-224). -/
def applyTokenBudget (results : List SearchResult) (budget : ℕ) : List SearchResult :=
  budgetGo budget 0 results

/-! ## Keyword and symbol search (src/src/search/keyword-search.ts) -/

/-- A row of the files table as read by keyword and symbol search. -/
structure FileRow where
  path : String
  language : Option String
deriving Repr, DecidableEq

/-- A chunk row returned by the chunks full-text query. -/
structure ChunkRow where
  file_id : ℕ
  start_line : ℕ
  end_line : ℕ
  content : String
  rank : ℚ
  symbol_ids : String
deriving Repr, DecidableEq

/-- A symbol row returned by the symbols full-text query. -/
structure SymbolRow where
  file_id : ℕ
  name : String
  signature : Option String
  docstring : Option String
  start_line : ℕ
  end_line : ℕ
  importance_score : ℚ
deriving Repr, DecidableEq

/-- The FTS5 special characters replaced by spaces (keyword-search.ts line 14). -/
def ftsSpecialChars : List Char :=
  ['\'', '"', '(', ')', '{', '}', '[', ']', '^', '~', '*', '?', ':', '\\', '!']

/-- The query tokenization shared by keywordSearch and symbolSearch
(keyword-search.ts lines 13-17 and 53-57): replace special characters by
spaces, split on whitespace, drop tokens of length < 2, join with " OR ". -/
def buildFtsQuery (query : String) : String :=
  let replaced := String.mk (query.data.map (fun c => if c ∈ ftsSpecialChars then ' ' else c))
  let words := (splitWs replaced.data).map String.mk
  String.intercalate " OR " (words.filter (fun w => 1 < w.length))

/-- One row of keywordSearch output (keyword-search.ts lines 24-38).
parseJsonArray abstracts JSON.parse of a string followed by filter(Boolean);
none models a thrown SyntaxError, which the surrounding try/catch turns into
an empty result list.  An empty symbol_ids string is falsy and short-circuits
to the empty list without parsing. -/
def keywordResultOf (getFileById : ℕ → Option FileRow)
    (parseJsonArray : String → Option (List String)) (r : ChunkRow) :
    Option SearchResult :=
  let file := getFileById r.file_id
  (if r.symbol_ids = "" then some []
   else (parseJsonArray r.symbol_ids).map (fun l => l.filter (fun s => s ≠ ""))).map
    (fun syms =>
      { filePath := (file.map FileRow.path).getD "unknown",
        startLine := r.start_line, endLine := r.end_line, content := r.content,
        score := if 0 < |r.rank| then 1 / (1 + |r.rank|) else 0,
        matchType := MatchType.keyword, symbols := syms,
        language := (file.bind FileRow.language).getD "unknown" })

/-- A map that aborts at the first failing element, modelling the JS
results.map inside the try/catch of keywordSearch: a thrown SyntaxError
propagates out of the whole map. -/
def mapOrThrow {α β : Type} (f : α → Option β) : List α → Option (List β)
  | [] => some []
  | a :: l =>
    match f a, mapOrThrow f l with
    | some b, some bs => some (b :: bs)
    | _, _ => none

/-- keywordSearch from src/src/search/keyword-search.ts (lines 4-43).  The
sqlite calls searchChunks and getFileById are abstracted as parameters. -/
def keywordSearch (searchChunks : String → ℕ → List ChunkRow)
    (getFileById : ℕ → Option FileRow)
    (parseJsonArray : String → Option (List String)) (query : String) (limit : ℕ) :
    List SearchResult :=
  let ftsQuery := buildFtsQuery query
  if ftsQuery = "" then []
  else
    match mapOrThrow (keywordResultOf getFileById parseJsonArray) (searchChunks ftsQuery limit) with
    | some results => results
    | none => []

/-- One row of symbolSearch output (keyword-search.ts lines 64-83).  The content
joins the signature (or name when the signature is null) with the docstring
comment, dropping empty pieces the way filter(Boolean) does. -/
def symbolResultOf (getFileById : ℕ → Option FileRow) (s : SymbolRow) : SearchResult :=
  let file := getFileById s.file_id
  let first := s.signature.getD s.name
  let second :=
    match s.docstring with
    | some d => if d = "" then "" else "// " ++ d
    | none => ""
  let content := String.intercalate "\n" ([first, second].filter (fun t => t ≠ ""))
  { filePath := (file.map FileRow.path).getD "unknown",
    startLine := s.start_line, endLine := s.end_line, content := content,
    score := s.importance_score + 1 / 10,
    matchType := MatchType.symbol, symbols := [s.name],
    language := (file.bind FileRow.language).getD "unknown" }

/-- symbolSearch from src/src/search/keyword-search.ts (lines 45-87).  The
sqlite calls searchSymbols and getFileById are abstracted as parameters. -/
def symbolSearch (searchSymbols : String → ℕ → List SymbolRow)
    (getFileById : ℕ → Option FileRow) (query : String) (limit : ℕ) :
    List SearchResult :=
  let ftsQuery := buildFtsQuery query
  if ftsQuery = "" then []
  else (searchSymbols ftsQuery limit).map (symbolResultOf getFileById)

/-! ## Ranker (src/src/indexer/ranker.ts) -/

/-- A graph edge as read by rankSymbols: only the endpoint ids matter. -/
structure GraphEdge where
  source_symbol_id : ℕ
  target_symbol_id : ℕ
deriving Repr, DecidableEq

/-- Insertion-ordered set insert, modelling JS Set.add. -/
def insertUnique (xs : List ℕ) (x : ℕ) : List ℕ :=
  if x ∈ xs then xs else xs ++ [x]

/-- The unique participating symbol ids, in first-appearance order
(ranker.ts lines 12-16). -/
def symbolIds (edges : List GraphEdge) : List ℕ :=
  edges.foldl
    (fun acc e => insertUnique (insertUnique acc e.source_symbol_id) e.target_symbol_id) []

/-- The out-adjacency list of a symbol (ranker.ts lines 22-35): targets of its
edges, in edge order, with multiplicity. -/
def outLinks (edges : List GraphEdge) (id : ℕ) : List ℕ :=
  (edges.filter (fun e => e.source_symbol_id = id)).map (fun e => e.target_symbol_id)

/-- The in-adjacency list of a symbol (ranker.ts lines 22-35). -/
def inLinks (edges : List GraphEdge) (id : ℕ) : List ℕ :=
  (edges.filter (fun e => e.target_symbol_id = id)).map (fun e => e.source_symbol_id)

/-- The score map after k PageRank iterations (ranker.ts lines 37-84), with
exact rational arithmetic in place of JS floats: damping 17/20, dangling mass
redistributed uniformly.  Ids outside the graph never enter the JS maps and
read as 0 here. -/
def pagerankScore (edges : List GraphEdge) : ℕ → ℕ → ℚ
  | 0 => fun id =>
    if id ∈ symbolIds edges then 1 / ((symbolIds edges).length : ℚ) else 0
  | k + 1 => fun id =>
    if id ∈ symbolIds edges then
      let N : ℚ := ((symbolIds edges).length : ℚ)
      let prev := pagerankScore edges k
      let danglingMass : ℚ :=
        (((symbolIds edges).filter (fun j => outLinks edges j = [])).map prev).sum
      let inScore : ℚ := ((inLinks edges id).map (fun j =>
        if 0 < (outLinks edges j).length then prev j / ((outLinks edges j).length : ℚ)
        else 0)).sum
      (1 - 17 / 20) / N + (17 / 20) * (inScore + danglingMass / N)
    else 0

/-- rankSymbols from src/src/indexer/ranker.ts (lines 7-100), returning the
batched importance updates it persists: nothing when there are no edges, and
otherwise each participating id with its final score divided by the maximum. -/
def rankSymbols (edges : List GraphEdge) : List (ℕ × ℚ) :=
  if edges = [] then []
  else
    let ids := symbolIds edges
    if ids.length = 0 then []
    else
      let final := pagerankScore edges 20
      let maxScore := (ids.map final).foldl max 0
      if 0 < maxScore then ids.map (fun id => (id, final id / maxScore)) else []

/-- Applies a batch of importance updates to persisted symbol scores
(updateSymbolImportanceBatch): ids without an update keep their score. -/
def applyImportanceUpdates (base : List (ℕ × ℚ)) (updates : List (ℕ × ℚ)) :
    List (ℕ × ℚ) :=
  base.map (fun p =>
    match updates.find? (fun u => u.1 == p.1) with
    | some u => (p.1, u.2)
    | none => p)

/-! ## Pipeline early phases (src pipeline, lines 44-152) -/

/-- The slice of metadata-store and vector-store state touched by the early
pipeline phases: file hashes and sizes by path, the key/value index state, and
the vector rows by owning file path. -/
structure StoreState where
  fileHashes : List (String × String)
  fileSizes : List (String × ℕ)
  stateEntries : List (String × String)
  vectors : List String
deriving Repr, DecidableEq

/-- IndexResult from the pipeline. -/
structure IndexResult where
  filesAdded : ℕ
  filesModified : ℕ
  filesRemoved : ℕ
  filesUnchanged : ℕ
  totalSymbols : ℕ
  totalChunks : ℕ
  totalEmbeddings : ℕ
deriving Repr, DecidableEq

/-- Models runIndexingPipeline (pipeline source, lines 44-152) up to and
including the early return that fires when there are no files to process.
The later phases (parse, chunk, persist, embed, graph, rank, state updates,
lines 154-407) are outside this model: the function returns none when
execution would continue into them, and some (store, result) when the
pipeline returns at the dry-run return (lines 58-72) or the no-files return
(lines 141-152).  On the no-files path the store reflects the vector deletes
for removed files and deleteFilesByPaths; clearAllData on a full run clears
every metadata table including index_state. -/
def runIndexingPipeline (hash : String → String) (discovered : List DiscoveredFile)
    (full dryRun : Bool) (store : StoreState) : Option (StoreState × IndexResult) :=
  if dryRun then
    some (store,
      { filesAdded := discovered.length, filesModified := 0, filesRemoved := 0,
        filesUnchanged := 0, totalSymbols := 0, totalChunks := 0, totalEmbeddings := 0 })
  else if full then
    let cleared : StoreState :=
      { fileHashes := [], fileSizes := [], stateEntries := [], vectors := store.vectors }
    if discovered.length = 0 then
      some (cleared,
        { filesAdded := 0, filesModified := 0, filesRemoved := 0, filesUnchanged := 0,
          totalSymbols := 0, totalChunks := 0, totalEmbeddings := 0 })
    else none
  else
    let diff := computeDiff hash discovered store.fileHashes (some store.fileSizes)
    if diff.added.length + diff.modified.length = 0 then
      let afterLance : StoreState :=
        { store with vectors := store.vectors.filter (fun p => p ∉ diff.removed) }
      let afterDelete : StoreState :=
        { afterLance with
            fileHashes := afterLance.fileHashes.filter (fun kv => kv.1 ∉ diff.removed),
            fileSizes := afterLance.fileSizes.filter (fun kv => kv.1 ∉ diff.removed) }
      some (afterDelete,
        { filesAdded := 0, filesModified := 0, filesRemoved := diff.removed.length,
          filesUnchanged := diff.unchanged.length, totalSymbols := 0, totalChunks := 0,
          totalEmbeddings := 0 })
    else none

/-! ## Theorems: token budget enforcement (C4) -/

theorem budgetGo_spec (budget : ℕ) :
    ∀ (rs : List SearchResult) (used : ℕ), used ≤ budget →
    ∃ n tail, budgetGo budget used rs = rs.take n ++ tail ∧
      used + ((rs.take n).map (fun r => estimateTokens r.content + 20)).sum ≤ budget ∧
      (tail = [] ∨ ∃ r, rs.get? n = some r ∧
        100 < budget - (used + ((rs.take n).map (fun r => estimateTokens r.content + 20)).sum) ∧
        tail = [truncatedTail r
          (budget - (used + ((rs.take n).map (fun r => estimateTokens r.content + 20)).sum))]) := by
  intro rs
  induction rs with
  | nil =>
    intro used h
    exact ⟨0, [], by simp [budgetGo], by simpa using h, Or.inl rfl⟩
  | cons r rest ih =>
    intro used h
    by_cases hb : budget < used + (estimateTokens r.content + 20)
    · by_cases hr : 100 < budget - used
      · refine ⟨0, _, ?_, by simpa using h, Or.inr ⟨r, rfl, by simpa using hr, rfl⟩⟩
        simp [budgetGo, hb, hr]
      · refine ⟨0, [], ?_, by simpa using h, Or.inl rfl⟩
        simp [budgetGo, hb, hr]
    · push_neg at hb
      obtain ⟨n, tail, he, hsum, htail⟩ := ih (used + (estimateTokens r.content + 20)) hb
      refine ⟨n + 1, tail, ?_, ?_, ?_⟩
      · have hgo : budgetGo budget used (r :: rest)
            = r :: budgetGo budget (used + (estimateTokens r.content + 20)) rest := by
          simp [budgetGo, Nat.not_lt.mpr hb]
        rw [hgo, he, List.take_succ_cons, List.cons_append]
      · simpa [List.take_succ_cons, Nat.add_assoc, Nat.add_comm, Nat.add_left_comm] using hsum
      · rcases htail with h0 | ⟨x, hx, hrem, hval⟩
        · exact Or.inl h0
        · refine Or.inr ⟨x, by simpa using hx, ?_, ?_⟩
          · have : used + (estimateTokens r.content + 20)
                + ((rest.take n).map (fun r => estimateTokens r.content + 20)).sum
                = used + (((r :: rest).take (n + 1)).map
                    (fun r => estimateTokens r.content + 20)).sum := by
              simp [List.take_succ_cons]; omega
            rwa [this] at hrem
          · have : used + (estimateTokens r.content + 20)
                + ((rest.take n).map (fun r => estimateTokens r.content + 20)).sum
                = used + (((r :: rest).take (n + 1)).map
                    (fun r => estimateTokens r.content + 20)).sum := by
              simp [List.take_succ_cons]; omega
            rwa [this] at hval

/-- C4: applyTokenBudget returns a prefix of its input whose per-result token
estimates (content estimate plus 20 overhead each) sum to at most the budget;
at most one extra truncated result follows, only when the remaining budget
exceeds 100, and its content is the first 3*remaining characters of the
original content followed by the truncation marker. -/
theorem applyTokenBudget_prefix_within_budget (results : List SearchResult) (budget : ℕ) :
    ∃ n tail, applyTokenBudget results budget = results.take n ++ tail ∧
      ((results.take n).map (fun r => estimateTokens r.content + 20)).sum ≤ budget ∧
      (tail = [] ∨ ∃ r, results.get? n = some r ∧
        100 < budget - ((results.take n).map (fun r => estimateTokens r.content + 20)).sum ∧
        tail = [truncatedTail r
          (budget - ((results.take n).map (fun r => estimateTokens r.content + 20)).sum)]) := by
  simpa [applyTokenBudget] using budgetGo_spec budget results 0 (Nat.zero_le budget)

/-! ## Theorems: deduplication (C6) -/

theorem dedupGo_compat :
    ∀ (l : List SearchResult) (seen : List (String × ℕ × ℕ)),
    ∀ x ∈ dedupGo seen l, ∀ s ∈ seen, overlapsTriple s x = false := by
  intro l
  induction l with
  | nil => intro seen x hx; simp [dedupGo] at hx
  | cons r rest ih =>
    intro seen x hx s hs
    by_cases h : seen.any (fun s => overlapsTriple s r)
    · rw [dedupGo, if_pos h] at hx
      exact ih seen x hx s hs
    · rw [dedupGo, if_neg h] at hx
      rcases List.mem_cons.mp hx with hx2 | hx2
      · subst hx2
        cases hov : overlapsTriple s x with
        | false => rfl
        | true => exact absurd (List.any_eq_true.mpr ⟨s, hs, hov⟩) h
      · exact ih (seen ++ [(r.filePath, r.startLine, r.endLine)]) x hx2 s
          (List.mem_append_left _ hs)

theorem dedupGo_sublist :
    ∀ (l : List SearchResult) (seen : List (String × ℕ × ℕ)),
    (dedupGo seen l).Sublist l := by
  intro l
  induction l with
  | nil => intro seen; simp [dedupGo]
  | cons r rest ih =>
    intro seen
    by_cases h : seen.any (fun s => overlapsTriple s r)
    · rw [dedupGo, if_pos h]
      exact (ih seen).cons r
    · rw [dedupGo, if_neg h]
      exact (ih (seen ++ [(r.filePath, r.startLine, r.endLine)])).cons₂ r

theorem dedupGo_pairwise :
    ∀ (l : List SearchResult) (seen : List (String × ℕ × ℕ)),
    (dedupGo seen l).Pairwise
      (fun a b => ¬(a.filePath = b.filePath ∧ b.startLine ≤ a.endLine ∧ a.startLine ≤ b.endLine)) := by
  intro l
  induction l with
  | nil => intro seen; simp [dedupGo]
  | cons r rest ih =>
    intro seen
    by_cases h : seen.any (fun s => overlapsTriple s r)
    · rw [dedupGo, if_pos h]; exact ih seen
    · rw [dedupGo, if_neg h]
      refine List.pairwise_cons.mpr ⟨?_, ih _⟩
      intro b hb hcontra
      obtain ⟨h1, h2, h3⟩ := hcontra
      have hfalse : overlapsTriple (r.filePath, r.startLine, r.endLine) b = false :=
        dedupGo_compat rest (seen ++ [(r.filePath, r.startLine, r.endLine)]) b hb
          _ (List.mem_append_right _ (List.mem_singleton.mpr rfl))
      simp [overlapsTriple, h1, h2, h3] at hfalse

/-- C6: in the output of deduplicateResults no two retained results share a
file path with intersecting closed line intervals, and the retained results
appear in their original relative order (the output is a sublist of the
input). -/
theorem deduplicateResults_no_overlap (results : List SearchResult) :
    (deduplicateResults results).Pairwise
      (fun a b => ¬(a.filePath = b.filePath ∧ b.startLine ≤ a.endLine ∧ a.startLine ≤ b.endLine)) ∧
    (deduplicateResults results).Sublist results :=
  ⟨dedupGo_pairwise results [], dedupGo_sublist results []⟩

/-! ## Theorems: pipeline on empty discovery (C5) -/

/-- C5 counterexample: on a non-dry, non-full run where discovery returns no
files and the store is empty, the pipeline takes the no-files early return and
the last_indexed state entry is never written, contradicting the claim that it
is set. -/
theorem runIndexingPipeline_empty_discovery_no_last_indexed :
    ∃ s r, runIndexingPipeline (fun _ => "") [] false false
        ⟨[], [], [], []⟩ = some (s, r) ∧
      List.lookup "last_indexed" s.stateEntries = none := by
  refine ⟨⟨[], [], [], []⟩, ⟨0, 0, 0, 0, 0, 0, 0⟩, ?_, rfl⟩
  rfl

/-- C5 (amended): a non-dry run with empty discovery returns at the no-files
early return: it writes no file records (the surviving file paths are a
sublist of the persisted ones), reports zero added, modified, symbol and chunk
counts, and leaves the state entries untouched (cleared on a full run), so
last_indexed is not set by the run. -/
theorem runIndexingPipeline_empty_discovery_early_return (hash : String → String)
    (full : Bool) (store : StoreState) :
    ∃ s r, runIndexingPipeline hash [] full false store = some (s, r) ∧
      s.stateEntries = (if full then [] else store.stateEntries) ∧
      (s.fileHashes.map Prod.fst).Sublist (store.fileHashes.map Prod.fst) ∧
      r.filesAdded = 0 ∧ r.filesModified = 0 ∧ r.totalSymbols = 0 ∧ r.totalChunks = 0 := by
  cases full with
  | true =>
    refine ⟨_, _, rfl, by simp, by simp, rfl, rfl, rfl, rfl⟩
  | false =>
    refine ⟨_, _, rfl, by simp, ?_, rfl, rfl, rfl, rfl⟩
    simpa using (List.Sublist.map Prod.fst (List.filter_sublist store.fileHashes))

/-! ## Theorems: keyword search scoring (C9) -/

/-- Every element of a successful mapOrThrow comes from some input element. -/
theorem mapOrThrow_mem {α β : Type} (f : α → Option β) :
    ∀ (l : List α) (ys : List β), mapOrThrow f l = some ys → ∀ y ∈ ys, ∃ x ∈ l, f x = some y := by
  intro l
  induction l with
  | nil =>
    intro ys h y hy
    simp only [mapOrThrow, Option.some.injEq] at h
    subst h
    simp at hy
  | cons a l ih =>
    intro ys h y hy
    rw [mapOrThrow] at h
    rcases ha : f a with _ | b
    · rw [ha] at h; simp at h
    · rcases hl : mapOrThrow f l with _ | bs
      · rw [ha, hl] at h; simp at h
      · rw [ha, hl] at h
        simp only [Option.some.injEq] at h
        subst h
        rcases List.mem_cons.mp hy with hy2 | hy2
        · exact ⟨a, List.mem_cons_self a l, by rw [ha, hy2]⟩
        · obtain ⟨x, hx, hfx⟩ := ih bs hl y hy2
          exact ⟨x, List.mem_cons_of_mem a hx, hfx⟩

/-- The score a successfully mapped keyword row receives. -/
theorem keywordResultOf_score (getFileById : ℕ → Option FileRow)
    (parseJsonArray : String → Option (List String)) (r : ChunkRow) (res : SearchResult)
    (h : keywordResultOf getFileById parseJsonArray r = some res) :
    res.score = if 0 < |r.rank| then 1 / (1 + |r.rank|) else 0 := by
  unfold keywordResultOf at h
  rcases Option.map_eq_some'.mp h with ⟨syms, _, hres⟩
  rw [← hres]

/-- C9 counterexample: a chunk row whose full-text rank is 0 is returned with
score 0, while the claimed formula 1/(1+abs rank) gives 1 at rank 0. -/
theorem keywordSearch_rank_zero_counterexample :
    (keywordSearch (fun _ _ => [⟨1, 1, 2, "x", 0, ""⟩]) (fun _ => none) (fun _ => none)
        "hello" 20).map SearchResult.score = [0] ∧
      (1 : ℚ) / (1 + |(0 : ℚ)|) = 1 ∧ (0 : ℚ) ≠ 1 := by
  refine ⟨?_, by norm_num, by norm_num⟩
  have hq : buildFtsQuery "hello" = "hello" := by rfl
  have hres : keywordResultOf (fun _ => none) (fun _ => none) ⟨1, 1, 2, "x", 0, ""⟩
      = some ⟨"unknown", 1, 2, "x", 0, MatchType.keyword, [], "unknown"⟩ := by
    simp [keywordResultOf]
  simp [keywordSearch, hq, mapOrThrow, hres]

/-- C9 (amended): every result of keywordSearch corresponds to a returned chunk
row and its score is 1/(1+abs rank) when the rank is nonzero and 0 when the
rank is exactly 0. -/
theorem keywordSearch_score_formula (searchChunks : String → ℕ → List ChunkRow)
    (getFileById : ℕ → Option FileRow) (parseJsonArray : String → Option (List String))
    (query : String) (limit : ℕ) :
    ∀ res ∈ keywordSearch searchChunks getFileById parseJsonArray query limit,
      ∃ r ∈ searchChunks (buildFtsQuery query) limit,
        res.score = if 0 < |r.rank| then 1 / (1 + |r.rank|) else 0 := by
  intro res hres
  unfold keywordSearch at hres
  by_cases hq : buildFtsQuery query = ""
  · simp [hq] at hres
  · rw [if_neg hq] at hres
    rcases hm : mapOrThrow (keywordResultOf getFileById parseJsonArray)
        (searchChunks (buildFtsQuery query) limit) with _ | results
    · rw [hm] at hres; simp at hres
    · rw [hm] at hres
      obtain ⟨r, hr, hfr⟩ := mapOrThrow_mem _ _ results hm res hres
      exact ⟨r, hr, keywordResultOf_score _ _ _ _ hfr⟩

/-- Witness for the amended C9 theorem at a concrete store with one chunk row
of rank -2. -/
theorem keywordSearch_score_formula_witness :
    (⟨"unknown", 1, 2, "x", 1 / 3, MatchType.keyword, [], "unknown"⟩ : SearchResult)
        ∈ keywordSearch (fun _ _ => [⟨1, 1, 2, "x", -2, ""⟩]) (fun _ => none)
          (fun _ => none) "hello" 20 ∧
      ∃ r ∈ (fun (_ : String) (_ : ℕ) => [(⟨1, 1, 2, "x", -2, ""⟩ : ChunkRow)])
          (buildFtsQuery "hello") 20,
        (⟨"unknown", 1, 2, "x", 1 / 3, MatchType.keyword, [], "unknown"⟩ : SearchResult).score
          = if 0 < |r.rank| then 1 / (1 + |r.rank|) else 0 := by
  have hq : buildFtsQuery "hello" = "hello" := by rfl
  have hres : keywordResultOf (fun _ => none) (fun _ => none) ⟨1, 1, 2, "x", -2, ""⟩
      = some ⟨"unknown", 1, 2, "x", 1 / 3, MatchType.keyword, [], "unknown"⟩ := by
    simp [keywordResultOf]
    norm_num
  have hmem : (⟨"unknown", 1, 2, "x", 1 / 3, MatchType.keyword, [], "unknown"⟩ : SearchResult)
      ∈ keywordSearch (fun _ _ => [⟨1, 1, 2, "x", -2, ""⟩]) (fun _ => none)
        (fun _ => none) "hello" 20 := by
    simp [keywordSearch, hq, mapOrThrow, hres]
  exact ⟨hmem, keywordSearch_score_formula _ _ _ "hello" 20 _ hmem⟩

/-! ## Theorems: symbol search scoring (C8) -/

/-- C8 counterexample: a symbol row with persisted importance 1 (the value the
ranker guarantees for the top symbol) is returned with score 11/10, which is
not min(importance + 0.1, 1.0) = 1, so symbol-mode scores can exceed 1. -/
theorem symbolSearch_unclamped_counterexample :
    (symbolSearch (fun _ _ => [⟨1, "foo", none, none, 1, 2, 1⟩]) (fun _ => none)
        "foo" 20).map SearchResult.score = [11 / 10] ∧
      min ((1 : ℚ) + 1 / 10) 1 = 1 ∧ (11 : ℚ) / 10 ≠ 1 := by
  refine ⟨?_, by norm_num, by norm_num⟩
  have hq : buildFtsQuery "foo" = "foo" := by rfl
  simp [symbolSearch, hq, symbolResultOf]
  norm_num

/-- C8 (amended): every result of symbolSearch corresponds to a returned symbol
row and its score is the persisted importance plus 0.1, with no upper clamp. -/
theorem symbolSearch_score_formula (searchSymbols : String → ℕ → List SymbolRow)
    (getFileById : ℕ → Option FileRow) (query : String) (limit : ℕ) :
    ∀ res ∈ symbolSearch searchSymbols getFileById query limit,
      ∃ s ∈ searchSymbols (buildFtsQuery query) limit,
        res.score = s.importance_score + 1 / 10 := by
  intro res hres
  unfold symbolSearch at hres
  by_cases hq : buildFtsQuery query = ""
  · simp [hq] at hres
  · rw [if_neg hq] at hres
    obtain ⟨s, hs, hmap⟩ := List.mem_map.mp hres
    exact ⟨s, hs, by rw [← hmap]; rfl⟩

/-- Witness for the amended C8 theorem at a concrete store with one symbol row
of importance 7/10. -/
theorem symbolSearch_score_formula_witness :
    symbolResultOf (fun _ => none) ⟨1, "foo", none, none, 1, 2, 7 / 10⟩
        ∈ symbolSearch (fun _ _ => [⟨1, "foo", none, none, 1, 2, 7 / 10⟩]) (fun _ => none)
          "foo" 20 ∧
      ∃ s ∈ (fun (_ : String) (_ : ℕ) => [(⟨1, "foo", none, none, 1, 2, 7 / 10⟩ : SymbolRow)])
          (buildFtsQuery "foo") 20,
        (symbolResultOf (fun _ => none) ⟨1, "foo", none, none, 1, 2, 7 / 10⟩).score
          = s.importance_score + 1 / 10 := by
  have hq : buildFtsQuery "foo" = "foo" := by rfl
  have hmem : symbolResultOf (fun _ => none) ⟨1, "foo", none, none, 1, 2, 7 / 10⟩
      ∈ symbolSearch (fun _ _ => [⟨1, "foo", none, none, 1, 2, 7 / 10⟩]) (fun _ => none)
        "foo" 20 := by
    simp [symbolSearch, hq]
  exact ⟨hmem, symbolSearch_score_formula _ _ "foo" 20 _ hmem⟩

/-! ## Theorems: PageRank normalization (C7) -/

theorem insertUnique_self (xs : List ℕ) (x : ℕ) : x ∈ insertUnique xs x := by
  unfold insertUnique
  by_cases h : x ∈ xs
  · rwa [if_pos h]
  · rw [if_neg h]; simp

theorem insertUnique_mono (xs : List ℕ) (x y : ℕ) (h : x ∈ xs) : x ∈ insertUnique xs y := by
  unfold insertUnique
  by_cases hy : y ∈ xs
  · rwa [if_pos hy]
  · rw [if_neg hy]; exact List.mem_append_left _ h

theorem foldl_insertUnique_mono :
    ∀ (edges : List GraphEdge) (acc : List ℕ) (x : ℕ), x ∈ acc →
      x ∈ edges.foldl
        (fun acc e => insertUnique (insertUnique acc e.source_symbol_id) e.target_symbol_id)
        acc := by
  intro edges
  induction edges with
  | nil => intro acc x h; simpa using h
  | cons e es ih =>
    intro acc x h
    exact ih _ x (insertUnique_mono _ x _ (insertUnique_mono _ x _ h))

theorem mem_symbolIds_of_mem :
    ∀ (edges : List GraphEdge), ∀ e ∈ edges,
      e.source_symbol_id ∈ symbolIds edges ∧ e.target_symbol_id ∈ symbolIds edges := by
  have general : ∀ (edges : List GraphEdge) (acc : List ℕ), ∀ e ∈ edges,
      e.source_symbol_id ∈ edges.foldl
        (fun acc e => insertUnique (insertUnique acc e.source_symbol_id) e.target_symbol_id) acc ∧
      e.target_symbol_id ∈ edges.foldl
        (fun acc e => insertUnique (insertUnique acc e.source_symbol_id) e.target_symbol_id) acc := by
    intro edges
    induction edges with
    | nil => intro acc e he; simp at he
    | cons f es ih =>
      intro acc e he
      rcases List.mem_cons.mp he with he2 | he2
      · subst he2
        constructor
        · exact foldl_insertUnique_mono es _ _
            (insertUnique_mono _ _ _ (insertUnique_self _ _))
        · exact foldl_insertUnique_mono es _ _ (insertUnique_self _ _)
      · exact ih _ e he2
  intro edges e he
  exact general edges [] e he

theorem symbolIds_ne_nil (edges : List GraphEdge) (h : edges ≠ []) :
    symbolIds edges ≠ [] := by
  rcases edges with _ | ⟨e, es⟩
  · exact absurd rfl h
  · have := (mem_symbolIds_of_mem (e :: es) e (List.mem_cons_self e es)).1
    intro hnil
    rw [hnil] at this
    simp at this

theorem pagerankScore_zero (edges : List GraphEdge) (id : ℕ) :
    pagerankScore edges 0 id =
      if id ∈ symbolIds edges then 1 / ((symbolIds edges).length : ℚ) else 0 := rfl

theorem pagerankScore_succ (edges : List GraphEdge) (k id : ℕ) :
    pagerankScore edges (k + 1) id =
      if id ∈ symbolIds edges then
        (1 - 17 / 20) / ((symbolIds edges).length : ℚ) + (17 / 20) *
          (((inLinks edges id).map (fun j =>
            if 0 < (outLinks edges j).length then
              pagerankScore edges k j / ((outLinks edges j).length : ℚ)
            else 0)).sum +
          (((symbolIds edges).filter (fun j => outLinks edges j = [])).map
            (pagerankScore edges k)).sum / ((symbolIds edges).length : ℚ))
      else 0 := rfl

theorem pagerankScore_nonneg (edges : List GraphEdge) :
    ∀ (k : ℕ) (id : ℕ), 0 ≤ pagerankScore edges k id := by
  intro k
  induction k with
  | zero =>
    intro id
    rw [pagerankScore_zero]
    by_cases h : id ∈ symbolIds edges
    · rw [if_pos h]
      positivity
    · rw [if_neg h]
  | succ k ih =>
    intro id
    rw [pagerankScore_succ]
    by_cases h : id ∈ symbolIds edges
    · rw [if_pos h]
      have hN : (0 : ℚ) ≤ ((symbolIds edges).length : ℚ) := by positivity
      have hdm : (0 : ℚ) ≤
          (((symbolIds edges).filter (fun j => outLinks edges j = [])).map
            (pagerankScore edges k)).sum := by
        apply List.sum_nonneg
        intro x hx
        obtain ⟨j, _, hj⟩ := List.mem_map.mp hx
        rw [← hj]; exact ih j
      have hin : (0 : ℚ) ≤ ((inLinks edges id).map (fun j =>
          if 0 < (outLinks edges j).length then
            pagerankScore edges k j / ((outLinks edges j).length : ℚ)
          else 0)).sum := by
        apply List.sum_nonneg
        intro x hx
        obtain ⟨j, _, hj⟩ := List.mem_map.mp hx
        rw [← hj]
        by_cases hd : 0 < (outLinks edges j).length
        · rw [if_pos hd]
          exact div_nonneg (ih j) (by positivity)
        · rw [if_neg hd]
      have h1 : (0 : ℚ) ≤ (1 - 17 / 20) / ((symbolIds edges).length : ℚ) := by
        apply div_nonneg _ hN; norm_num
      have h2 : (0 : ℚ) ≤ (17 / 20 : ℚ) *
          (((inLinks edges id).map (fun j =>
            if 0 < (outLinks edges j).length then
              pagerankScore edges k j / ((outLinks edges j).length : ℚ)
            else 0)).sum +
          (((symbolIds edges).filter (fun j => outLinks edges j = [])).map
            (pagerankScore edges k)).sum / ((symbolIds edges).length : ℚ)) := by
        apply mul_nonneg (by norm_num)
        exact add_nonneg hin (div_nonneg hdm hN)
      exact add_nonneg h1 h2
    · rw [if_neg h]

theorem pagerankScore_final_pos (edges : List GraphEdge) (h : edges ≠ []) :
    ∀ id ∈ symbolIds edges, 0 < pagerankScore edges 20 id := by
  intro id hid
  have hlen : 0 < (symbolIds edges).length :=
    List.length_pos.mpr (symbolIds_ne_nil edges h)
  have hN : (0 : ℚ) < ((symbolIds edges).length : ℚ) := by exact_mod_cast hlen
  have h20 : (20 : ℕ) = 19 + 1 := rfl
  rw [h20, pagerankScore_succ, if_pos hid]
  have hdm : (0 : ℚ) ≤
      (((symbolIds edges).filter (fun j => outLinks edges j = [])).map
        (pagerankScore edges 19)).sum := by
    apply List.sum_nonneg
    intro x hx
    obtain ⟨j, _, hj⟩ := List.mem_map.mp hx
    rw [← hj]; exact pagerankScore_nonneg edges 19 j
  have hin : (0 : ℚ) ≤ ((inLinks edges id).map (fun j =>
      if 0 < (outLinks edges j).length then
        pagerankScore edges 19 j / ((outLinks edges j).length : ℚ)
      else 0)).sum := by
    apply List.sum_nonneg
    intro x hx
    obtain ⟨j, _, hj⟩ := List.mem_map.mp hx
    rw [← hj]
    by_cases hd : 0 < (outLinks edges j).length
    · rw [if_pos hd]
      exact div_nonneg (pagerankScore_nonneg edges 19 j) (by positivity)
    · rw [if_neg hd]
  have h1 : (0 : ℚ) < (1 - 17 / 20) / ((symbolIds edges).length : ℚ) := by
    apply div_pos _ hN; norm_num
  have h2 : (0 : ℚ) ≤ (17 / 20 : ℚ) * (((inLinks edges id).map (fun j =>
      if 0 < (outLinks edges j).length then
        pagerankScore edges 19 j / ((outLinks edges j).length : ℚ)
      else 0)).sum +
      (((symbolIds edges).filter (fun j => outLinks edges j = [])).map
        (pagerankScore edges 19)).sum / ((symbolIds edges).length : ℚ)) := by
    apply mul_nonneg (by norm_num)
    exact add_nonneg hin (div_nonneg hdm (le_of_lt hN))
  linarith

theorem init_le_foldl_max : ∀ (l : List ℚ) (a : ℚ), a ≤ l.foldl max a := by
  intro l
  induction l with
  | nil => intro a; simp
  | cons b l ih =>
    intro a
    calc a ≤ max a b := le_max_left a b
      _ ≤ l.foldl max (max a b) := ih (max a b)

theorem le_foldl_max : ∀ (l : List ℚ) (a : ℚ), ∀ x ∈ l, x ≤ l.foldl max a := by
  intro l
  induction l with
  | nil => intro a x hx; simp at hx
  | cons b l ih =>
    intro a x hx
    rcases List.mem_cons.mp hx with hx2 | hx2
    · subst hx2
      calc x ≤ max a x := le_max_right a x
        _ ≤ (l.foldl max (max a x)) := init_le_foldl_max l (max a x)
    · exact ih (max a b) x hx2

theorem foldl_max_mem : ∀ (l : List ℚ) (a : ℚ), l.foldl max a = a ∨ l.foldl max a ∈ l := by
  intro l
  induction l with
  | nil => intro a; simp
  | cons b l ih =>
    intro a
    rcases ih (max a b) with h | h
    · rcases max_choice a b with hm | hm
      · rw [List.foldl_cons, h, hm]; exact Or.inl rfl
      · rw [List.foldl_cons, h, hm]; exact Or.inr (List.mem_cons_self b l)
    · exact Or.inr (List.mem_cons_of_mem b h)

/-- C7 counterexample: when the symbol graph has no edges, rankSymbols returns
no updates at all (ranker.ts line 9), so a store whose symbols were inserted
with importance 0 (pipeline line 257) keeps importance 0 everywhere and no
symbol has importance exactly 1 after the ranking phase. -/
theorem rankSymbols_empty_graph_counterexample :
    rankSymbols [] = [] ∧
    applyImportanceUpdates [(1, 0)] (rankSymbols []) = [(1, 0)] ∧
    ∀ p ∈ applyImportanceUpdates [(1, 0)] (rankSymbols []), p.2 ≠ 1 := by
  refine ⟨rfl, rfl, ?_⟩
  intro p hp
  simp only [applyImportanceUpdates, rankSymbols, if_pos rfl, List.find?_nil,
    List.map_cons, List.map_nil] at hp
  rcases List.mem_cons.mp hp with h | h
  · subst h; norm_num
  · simp at h

/-- C7 (amended): whenever the symbol graph has at least one edge, every
importance update written by rankSymbols lies in (0, 1] and at least one
update is exactly 1 (the maximum is normalized to itself); symbols outside
the graph keep their stored scores, so with the insertion default 0 all
scores stay within [0, 1]. -/
theorem rankSymbols_normalized (edges : List GraphEdge) (h : edges ≠ []) :
    (∀ p ∈ rankSymbols edges, 0 < p.2 ∧ p.2 ≤ 1) ∧
    ∃ p ∈ rankSymbols edges, p.2 = 1 := by
  have hids : symbolIds edges ≠ [] := symbolIds_ne_nil edges h
  have hlen : (symbolIds edges).length ≠ 0 :=
    Nat.pos_iff_ne_zero.mp (List.length_pos.mpr hids)
  obtain ⟨id0, hid0⟩ := List.exists_mem_of_ne_nil _ hids
  have hpos0 : 0 < pagerankScore edges 20 id0 := pagerankScore_final_pos edges h id0 hid0
  have hmax_ge : pagerankScore edges 20 id0
      ≤ ((symbolIds edges).map (pagerankScore edges 20)).foldl max 0 :=
    le_foldl_max _ 0 _ (List.mem_map.mpr ⟨id0, hid0, rfl⟩)
  have hmaxpos : 0 < ((symbolIds edges).map (pagerankScore edges 20)).foldl max 0 :=
    lt_of_lt_of_le hpos0 hmax_ge
  have hunfold : rankSymbols edges = (symbolIds edges).map
      (fun id => (id, pagerankScore edges 20 id
        / ((symbolIds edges).map (pagerankScore edges 20)).foldl max 0)) := by
    rw [rankSymbols, if_neg h, if_neg hlen, if_pos hmaxpos]
  constructor
  · intro p hp
    rw [hunfold] at hp
    obtain ⟨id, hid, hpid⟩ := List.mem_map.mp hp
    subst hpid
    constructor
    · exact div_pos (pagerankScore_final_pos edges h id hid) hmaxpos
    · rw [div_le_one hmaxpos]
      exact le_foldl_max _ 0 _ (List.mem_map.mpr ⟨id, hid, rfl⟩)
  · rcases foldl_max_mem ((symbolIds edges).map (pagerankScore edges 20)) 0 with hm | hm
    · exact absurd hm.symm (ne_of_lt hmaxpos)
    · obtain ⟨id1, hid1, hval⟩ := List.mem_map.mp hm
      refine ⟨(id1, pagerankScore edges 20 id1
        / ((symbolIds edges).map (pagerankScore edges 20)).foldl max 0), ?_, ?_⟩
      · rw [hunfold]
        exact List.mem_map.mpr ⟨id1, hid1, rfl⟩
      · show pagerankScore edges 20 id1
          / ((symbolIds edges).map (pagerankScore edges 20)).foldl max 0 = 1
        rw [hval]
        exact div_self (ne_of_gt hmaxpos)

/-- Witness for the amended C7 theorem on the one-edge graph with a self loop. -/
theorem rankSymbols_normalized_witness :
    ([⟨1, 1⟩] : List GraphEdge) ≠ [] ∧
    ((∀ p ∈ rankSymbols [⟨1, 1⟩], 0 < p.2 ∧ p.2 ≤ 1) ∧
      ∃ p ∈ rankSymbols [⟨1, 1⟩], p.2 = 1) :=
  ⟨by simp, rankSymbols_normalized [⟨1, 1⟩] (by simp)⟩

/-! ## Theorems: diff partition (C1) -/

theorem diffLoop_cons_added (hash : String → String) (eh : List (String × String))
    (es : Option (List (String × ℕ))) (f : DiscoveredFile) (rest : List DiscoveredFile)
    (h : classifyFile hash eh es f = DiffClass.added) :
    diffLoop hash eh es (f :: rest) =
      (f :: (diffLoop hash eh es rest).1, (diffLoop hash eh es rest).2.1,
        (diffLoop hash eh es rest).2.2) := by
  rw [diffLoop, h]

theorem diffLoop_cons_modified (hash : String → String) (eh : List (String × String))
    (es : Option (List (String × ℕ))) (f : DiscoveredFile) (rest : List DiscoveredFile)
    (h : classifyFile hash eh es f = DiffClass.modified) :
    diffLoop hash eh es (f :: rest) =
      ((diffLoop hash eh es rest).1, f :: (diffLoop hash eh es rest).2.1,
        (diffLoop hash eh es rest).2.2) := by
  rw [diffLoop, h]

theorem diffLoop_cons_unchanged (hash : String → String) (eh : List (String × String))
    (es : Option (List (String × ℕ))) (f : DiscoveredFile) (rest : List DiscoveredFile)
    (h : classifyFile hash eh es f = DiffClass.unchanged) :
    diffLoop hash eh es (f :: rest) =
      ((diffLoop hash eh es rest).1, (diffLoop hash eh es rest).2.1,
        f.relativePath :: (diffLoop hash eh es rest).2.2) := by
  rw [diffLoop, h]

theorem diffLoop_perm (hash : String → String) (eh : List (String × String))
    (es : Option (List (String × ℕ))) :
    ∀ (l : List DiscoveredFile),
      ((diffLoop hash eh es l).1.map DiscoveredFile.relativePath ++
        ((diffLoop hash eh es l).2.1.map DiscoveredFile.relativePath ++
          (diffLoop hash eh es l).2.2)).Perm
        (l.map DiscoveredFile.relativePath) := by
  intro l
  induction l with
  | nil => simp [diffLoop]
  | cons f rest ih =>
    rcases hcf : classifyFile hash eh es f with _ | _ | _
    · rw [diffLoop_cons_added hash eh es f rest hcf]
      simpa using ih.cons f.relativePath
    · rw [diffLoop_cons_modified hash eh es f rest hcf]
      simp only [List.map_cons, List.cons_append, List.map_nil]
      exact List.Perm.trans List.perm_middle (ih.cons f.relativePath)
    · rw [diffLoop_cons_unchanged hash eh es f rest hcf]
      simp only [List.map_cons]
      rw [← List.append_assoc]
      refine List.Perm.trans List.perm_middle ?_
      rw [List.append_assoc]
      exact ih.cons f.relativePath

theorem filter_map_fst {β : Type} (dpaths : List String) :
    ∀ (eh : List (String × β)),
      ((eh.filter (fun kv => kv.1 ∉ dpaths)).map Prod.fst)
        = (eh.map Prod.fst).filter (fun p => p ∉ dpaths) := by
  intro eh
  induction eh with
  | nil => simp
  | cons kv rest ih =>
    by_cases h : kv.1 ∈ dpaths
    · simpa [List.filter_cons, h] using ih
    · simpa [List.filter_cons, h] using ih

/-- C1: computeDiff partitions the discovered files exactly: the added,
modified and unchanged path lists are pairwise disjoint and their union is the
discovered path set; removed consists exactly of persisted paths absent from
discovery and so meets no discovered path; and the four bucket sizes add up to
the cardinality of the union of discovered and persisted paths. -/
theorem computeDiff_partitions (hash : String → String) (discovered : List DiscoveredFile)
    (eh : List (String × String)) (es : Option (List (String × ℕ)))
    (hd : (discovered.map DiscoveredFile.relativePath).Nodup)
    (he : (eh.map Prod.fst).Nodup) :
    ((computeDiff hash discovered eh es).added.map DiscoveredFile.relativePath).Disjoint
      ((computeDiff hash discovered eh es).modified.map DiscoveredFile.relativePath) ∧
    ((computeDiff hash discovered eh es).added.map DiscoveredFile.relativePath).Disjoint
      (computeDiff hash discovered eh es).unchanged ∧
    ((computeDiff hash discovered eh es).modified.map DiscoveredFile.relativePath).Disjoint
      (computeDiff hash discovered eh es).unchanged ∧
    (∀ p, p ∈ discovered.map DiscoveredFile.relativePath ↔
      (p ∈ (computeDiff hash discovered eh es).added.map DiscoveredFile.relativePath ∨
       p ∈ (computeDiff hash discovered eh es).modified.map DiscoveredFile.relativePath ∨
       p ∈ (computeDiff hash discovered eh es).unchanged)) ∧
    (∀ p ∈ (computeDiff hash discovered eh es).removed,
      p ∉ discovered.map DiscoveredFile.relativePath) ∧
    ((computeDiff hash discovered eh es).added.length +
      (computeDiff hash discovered eh es).modified.length +
      (computeDiff hash discovered eh es).unchanged.length +
      (computeDiff hash discovered eh es).removed.length
      = ((discovered.map DiscoveredFile.relativePath).toFinset ∪
          (eh.map Prod.fst).toFinset).card) := by
  have hperm := diffLoop_perm hash eh es discovered
  have hA : (computeDiff hash discovered eh es).added = (diffLoop hash eh es discovered).1 := rfl
  have hM : (computeDiff hash discovered eh es).modified
      = (diffLoop hash eh es discovered).2.1 := rfl
  have hU : (computeDiff hash discovered eh es).unchanged
      = (diffLoop hash eh es discovered).2.2 := rfl
  have hR : (computeDiff hash discovered eh es).removed
      = (eh.filter (fun kv =>
          kv.1 ∉ discovered.map (fun f => f.relativePath))).map Prod.fst := rfl
  have hnodup : ((diffLoop hash eh es discovered).1.map DiscoveredFile.relativePath ++
      ((diffLoop hash eh es discovered).2.1.map DiscoveredFile.relativePath ++
        (diffLoop hash eh es discovered).2.2)).Nodup :=
    hperm.nodup_iff.mpr hd
  rw [List.nodup_append] at hnodup
  obtain ⟨hnA, hnMU, hdisjA⟩ := hnodup
  rw [List.nodup_append] at hnMU
  obtain ⟨hnM, hnU, hdisjMU⟩ := hnMU
  rw [List.disjoint_append_right] at hdisjA
  refine ⟨?_, ?_, ?_, ?_, ?_, ?_⟩
  · rw [hA, hM]; exact hdisjA.1
  · rw [hA, hU]; exact hdisjA.2
  · rw [hM, hU]; exact hdisjMU
  · intro p
    rw [hA, hM, hU]
    rw [← hperm.mem_iff (a := p)]
    simp [List.mem_append]
  · intro p hp
    rw [hR] at hp
    obtain ⟨kv, hkv, hfst⟩ := List.mem_map.mp hp
    have := (List.mem_filter.mp hkv).2
    rw [hfst] at this
    simpa using this
  · rw [hA, hM, hU, hR]
    have hlen : (diffLoop hash eh es discovered).1.length +
        (diffLoop hash eh es discovered).2.1.length +
        (diffLoop hash eh es discovered).2.2.length
        = discovered.length := by
      have := hperm.length_eq
      simp only [List.length_append, List.length_map] at this
      omega
    have hrm : ((eh.filter (fun kv =>
        kv.1 ∉ discovered.map (fun f => f.relativePath))).map Prod.fst).length
        = ((eh.map Prod.fst).filter (fun p =>
            p ∉ discovered.map (fun f => f.relativePath))).length := by
      rw [filter_map_fst]
    have hsd : ((eh.map Prod.fst).filter (fun p =>
        p ∉ discovered.map (fun f => f.relativePath))).toFinset
        = (eh.map Prod.fst).toFinset \
          (discovered.map DiscoveredFile.relativePath).toFinset := by
      ext x
      simp [List.mem_filter, Finset.mem_sdiff, List.mem_toFinset]
    have hnfilter : ((eh.map Prod.fst).filter (fun p =>
        p ∉ discovered.map (fun f => f.relativePath))).Nodup := he.filter _
    have hc1 : (discovered.map DiscoveredFile.relativePath).toFinset.card
        = discovered.length := by
      rw [List.toFinset_card_of_nodup hd, List.length_map]
    have hc2 : ((eh.map Prod.fst).filter (fun p =>
        p ∉ discovered.map (fun f => f.relativePath))).toFinset.card
        = ((eh.map Prod.fst).filter (fun p =>
            p ∉ discovered.map (fun f => f.relativePath))).length :=
      List.toFinset_card_of_nodup hnfilter
    have hcard := Finset.card_sdiff_add_card (eh.map Prod.fst).toFinset
      (discovered.map DiscoveredFile.relativePath).toFinset
    rw [← hsd] at hcard
    rw [Finset.union_comm] at hcard
    rw [hrm]
    omega

/-- Witness for C1 at a one-file discovery set against a one-file persisted map. -/
theorem computeDiff_partitions_witness :
    (([⟨"", "a.ts", none, 3, "abc"⟩] : List DiscoveredFile).map
      DiscoveredFile.relativePath).Nodup ∧
    (([("b.ts", "h")] : List (String × String)).map Prod.fst).Nodup ∧
    (((computeDiff (fun _ => "") [⟨"", "a.ts", none, 3, "abc"⟩] [("b.ts", "h")] none).added.map
        DiscoveredFile.relativePath).Disjoint
      ((computeDiff (fun _ => "") [⟨"", "a.ts", none, 3, "abc"⟩] [("b.ts", "h")] none).modified.map
        DiscoveredFile.relativePath) ∧
    ((computeDiff (fun _ => "") [⟨"", "a.ts", none, 3, "abc"⟩] [("b.ts", "h")] none).added.map
        DiscoveredFile.relativePath).Disjoint
      (computeDiff (fun _ => "") [⟨"", "a.ts", none, 3, "abc"⟩] [("b.ts", "h")] none).unchanged ∧
    ((computeDiff (fun _ => "") [⟨"", "a.ts", none, 3, "abc"⟩] [("b.ts", "h")] none).modified.map
        DiscoveredFile.relativePath).Disjoint
      (computeDiff (fun _ => "") [⟨"", "a.ts", none, 3, "abc"⟩] [("b.ts", "h")] none).unchanged ∧
    (∀ p, p ∈ ([⟨"", "a.ts", none, 3, "abc"⟩] : List DiscoveredFile).map
        DiscoveredFile.relativePath ↔
      (p ∈ (computeDiff (fun _ => "") [⟨"", "a.ts", none, 3, "abc"⟩]
          [("b.ts", "h")] none).added.map DiscoveredFile.relativePath ∨
       p ∈ (computeDiff (fun _ => "") [⟨"", "a.ts", none, 3, "abc"⟩]
          [("b.ts", "h")] none).modified.map DiscoveredFile.relativePath ∨
       p ∈ (computeDiff (fun _ => "") [⟨"", "a.ts", none, 3, "abc"⟩]
          [("b.ts", "h")] none).unchanged)) ∧
    (∀ p ∈ (computeDiff (fun _ => "") [⟨"", "a.ts", none, 3, "abc"⟩]
        [("b.ts", "h")] none).removed,
      p ∉ ([⟨"", "a.ts", none, 3, "abc"⟩] : List DiscoveredFile).map
        DiscoveredFile.relativePath) ∧
    ((computeDiff (fun _ => "") [⟨"", "a.ts", none, 3, "abc"⟩] [("b.ts", "h")] none).added.length +
      (computeDiff (fun _ => "") [⟨"", "a.ts", none, 3, "abc"⟩] [("b.ts", "h")] none).modified.length +
      (computeDiff (fun _ => "") [⟨"", "a.ts", none, 3, "abc"⟩] [("b.ts", "h")] none).unchanged.length +
      (computeDiff (fun _ => "") [⟨"", "a.ts", none, 3, "abc"⟩] [("b.ts", "h")] none).removed.length
      = ((([⟨"", "a.ts", none, 3, "abc"⟩] : List DiscoveredFile).map
          DiscoveredFile.relativePath).toFinset ∪
          (([("b.ts", "h")] : List (String × String)).map Prod.fst).toFinset).card)) :=
  ⟨by simp, by simp,
    computeDiff_partitions (fun _ => "") [⟨"", "a.ts", none, 3, "abc"⟩]
      [("b.ts", "h")] none (by simp) (by simp)⟩

/-! ## Theorems: reciprocal rank fusion (C3) -/

theorem resultKey_set_score (r : SearchResult) (s : ℚ) :
    resultKey { r with score := s } = resultKey r := rfl

theorem mergeInsert_score (k : ℕ) (w : ℚ) (rank : ℕ) (r : SearchResult) (key : String) :
    ∀ (m : List (String × SearchResult × ℚ)),
      (mergedScore key (mergeInsert k w rank r m)).getD 0
        = (mergedScore key m).getD 0
          + (if resultKey r = key then w / ((k : ℚ) + rank + 1) else 0) := by
  intro m
  induction m with
  | nil =>
    by_cases hk : key = resultKey r
    · subst hk
      simp [mergeInsert, mergedScore]
    · rw [mergeInsert]
      simp [mergedScore, hk, Ne.symm hk]
  | cons e rest ih =>
    obtain ⟨k2, res, s⟩ := e
    by_cases hr : resultKey r = k2
    · rw [mergeInsert, if_pos hr]
      by_cases hk : key = k2
      · subst hk
        rw [mergedScore, if_pos rfl, mergedScore, if_pos rfl, if_pos hr]
        simp
      · rw [mergedScore, if_neg hk, mergedScore, if_neg hk]
        rw [if_neg (fun h => hk (h.symm.trans hr))]
        simp
    · rw [mergeInsert, if_neg hr]
      by_cases hk : key = k2
      · subst hk
        rw [mergedScore, if_pos rfl, mergedScore, if_pos rfl]
        rw [if_neg (fun h => hr h)]
        simp
      · rw [mergedScore, if_neg hk, mergedScore, if_neg hk]
        exact ih

theorem mergeInsert_keys (k : ℕ) (w : ℚ) (rank : ℕ) (r : SearchResult) (key : String) :
    ∀ (m : List (String × SearchResult × ℚ)),
      mergedScore key (mergeInsert k w rank r m) ≠ none ↔
        (mergedScore key m ≠ none ∨ key = resultKey r) := by
  intro m
  induction m with
  | nil =>
    by_cases hk : key = resultKey r
    · subst hk
      simp [mergeInsert, mergedScore]
    · rw [mergeInsert]
      simp [mergedScore, hk, Ne.symm hk]
  | cons e rest ih =>
    obtain ⟨k2, res, s⟩ := e
    by_cases hr : resultKey r = k2
    · rw [mergeInsert, if_pos hr]
      by_cases hk : key = k2
      · subst hk
        rw [mergedScore, if_pos rfl, mergedScore, if_pos rfl]
        simp
      · rw [mergedScore, if_neg hk, mergedScore, if_neg hk]
        constructor
        · intro h; exact Or.inl h
        · intro h
          rcases h with h | h
          · exact h
          · exact absurd (h.trans hr) hk
    · rw [mergeInsert, if_neg hr]
      by_cases hk : key = k2
      · subst hk
        rw [mergedScore, if_pos rfl, mergedScore, if_pos rfl]
        simp
      · rw [mergedScore, if_neg hk, mergedScore, if_neg hk]
        rw [ih]

theorem mergeInsert_inv (k : ℕ) (w : ℚ) (rank : ℕ) (r : SearchResult) :
    ∀ (m : List (String × SearchResult × ℚ)),
      (∀ e ∈ m, resultKey e.2.1 = e.1) →
      ∀ e ∈ mergeInsert k w rank r m, resultKey e.2.1 = e.1 := by
  intro m
  induction m with
  | nil =>
    intro _ e he
    rw [mergeInsert] at he
    rcases List.mem_singleton.mp he with h
    subst h
    rfl
  | cons e0 rest ih =>
    obtain ⟨k2, res, s⟩ := e0
    intro hinv e he
    by_cases hr : resultKey r = k2
    · rw [mergeInsert, if_pos hr] at he
      rcases List.mem_cons.mp he with h | h
      · subst h
        by_cases hc : res.content.length < r.content.length
        · simp only [if_pos hc]
          exact hr
        · simp only [if_neg hc]
          exact hinv (k2, res, s) (List.mem_cons_self _ _)
      · exact hinv e (List.mem_cons_of_mem _ h)
    · rw [mergeInsert, if_neg hr] at he
      rcases List.mem_cons.mp he with h | h
      · subst h
        exact hinv (k2, res, s) (List.mem_cons_self _ _)
      · exact ih (fun e2 he2 => hinv e2 (List.mem_cons_of_mem _ he2)) e h

theorem rrfFold_score (k : ℕ) (w : ℚ) (key : String) :
    ∀ (rs : List SearchResult) (rank : ℕ) (m : List (String × SearchResult × ℚ)),
      (mergedScore key (rrfFold k w rank m rs)).getD 0
        = (mergedScore key m).getD 0 + sourceScore k w key rank rs := by
  intro rs
  induction rs with
  | nil => intro rank m; simp [rrfFold, sourceScore]
  | cons r rest ih =>
    intro rank m
    rw [rrfFold, sourceScore, ih (rank + 1) (mergeInsert k w rank r m),
      mergeInsert_score]
    ring

theorem rrfFold_keys (k : ℕ) (w : ℚ) (key : String) :
    ∀ (rs : List SearchResult) (rank : ℕ) (m : List (String × SearchResult × ℚ)),
      mergedScore key (rrfFold k w rank m rs) ≠ none ↔
        (mergedScore key m ≠ none ∨ ∃ r ∈ rs, resultKey r = key) := by
  intro rs
  induction rs with
  | nil => intro rank m; simp [rrfFold]
  | cons r rest ih =>
    intro rank m
    rw [rrfFold, ih (rank + 1) (mergeInsert k w rank r m), mergeInsert_keys]
    constructor
    · intro h
      rcases h with (h | h) | h
      · exact Or.inl h
      · exact Or.inr ⟨r, List.mem_cons_self r rest, h.symm⟩
      · obtain ⟨x, hx, hk2⟩ := h
        exact Or.inr ⟨x, List.mem_cons_of_mem r hx, hk2⟩
    · intro h
      rcases h with h | ⟨x, hx, hk2⟩
      · exact Or.inl (Or.inl h)
      · rcases List.mem_cons.mp hx with hx2 | hx2
        · subst hx2; exact Or.inl (Or.inr hk2.symm)
        · exact Or.inr ⟨x, hx2, hk2⟩

theorem rrfFold_inv (k : ℕ) (w : ℚ) :
    ∀ (rs : List SearchResult) (rank : ℕ) (m : List (String × SearchResult × ℚ)),
      (∀ e ∈ m, resultKey e.2.1 = e.1) →
      ∀ e ∈ rrfFold k w rank m rs, resultKey e.2.1 = e.1 := by
  intro rs
  induction rs with
  | nil => intro rank m hm; simpa [rrfFold] using hm
  | cons r rest ih =>
    intro rank m hm
    rw [rrfFold]
    exact ih (rank + 1) (mergeInsert k w rank r m) (mergeInsert_inv k w rank r m hm)

theorem sourcesFold_score (k : ℕ) (key : String) :
    ∀ (sources : List (List SearchResult × ℚ)) (m : List (String × SearchResult × ℚ)),
      (mergedScore key (sources.foldl (fun m sw => rrfFold k sw.2 0 m sw.1) m)).getD 0
        = (mergedScore key m).getD 0 + fusedScore k key sources := by
  intro sources
  induction sources with
  | nil => intro m; simp [fusedScore]
  | cons sw rest ih =>
    intro m
    rw [List.foldl_cons, ih (rrfFold k sw.2 0 m sw.1), rrfFold_score, fusedScore]
    ring

theorem sourcesFold_keys (k : ℕ) (key : String) :
    ∀ (sources : List (List SearchResult × ℚ)) (m : List (String × SearchResult × ℚ)),
      mergedScore key (sources.foldl (fun m sw => rrfFold k sw.2 0 m sw.1) m) ≠ none ↔
        (mergedScore key m ≠ none ∨ ∃ sw ∈ sources, ∃ r ∈ sw.1, resultKey r = key) := by
  intro sources
  induction sources with
  | nil => intro m; simp
  | cons sw rest ih =>
    intro m
    rw [List.foldl_cons, ih (rrfFold k sw.2 0 m sw.1), rrfFold_keys]
    constructor
    · intro h
      rcases h with (h | h) | h
      · exact Or.inl h
      · exact Or.inr ⟨sw, List.mem_cons_self sw rest, h⟩
      · obtain ⟨sw2, hsw2, hr⟩ := h
        exact Or.inr ⟨sw2, List.mem_cons_of_mem sw hsw2, hr⟩
    · intro h
      rcases h with h | ⟨sw2, hsw2, hr⟩
      · exact Or.inl (Or.inl h)
      · rcases List.mem_cons.mp hsw2 with hs | hs
        · subst hs; exact Or.inl (Or.inr hr)
        · exact Or.inr ⟨sw2, hs, hr⟩

theorem sourcesFold_inv (k : ℕ) :
    ∀ (sources : List (List SearchResult × ℚ)) (m : List (String × SearchResult × ℚ)),
      (∀ e ∈ m, resultKey e.2.1 = e.1) →
      ∀ e ∈ sources.foldl (fun m sw => rrfFold k sw.2 0 m sw.1) m,
        resultKey e.2.1 = e.1 := by
  intro sources
  induction sources with
  | nil => intro m hm; simpa using hm
  | cons sw rest ih =>
    intro m hm
    rw [List.foldl_cons]
    exact ih (rrfFold k sw.2 0 m sw.1) (rrfFold_inv k sw.2 sw.1 0 m hm)

theorem mergedScore_entry (key : String) :
    ∀ (m : List (String × SearchResult × ℚ)), mergedScore key m ≠ none →
      ∃ e ∈ m, e.1 = key ∧ e.2.2 = (mergedScore key m).getD 0 := by
  intro m
  induction m with
  | nil => intro h; simp [mergedScore] at h
  | cons e rest ih =>
    intro h
    by_cases hk : key = e.1
    · refine ⟨e, List.mem_cons_self e rest, hk.symm, ?_⟩
      rw [mergedScore, if_pos hk]
      simp
    · rw [mergedScore, if_neg hk] at h ⊢
      obtain ⟨e2, he2, hk2, hs2⟩ := ih h
      exact ⟨e2, List.mem_cons_of_mem e he2, hk2, hs2⟩

/-- The fused score of a key present in some source appears on exactly the
result carrying that key in the fused output. -/
theorem reciprocalRankFusion_key_score (sources : List (List SearchResult × ℚ))
    (k : ℕ) (key : String)
    (hocc : ∃ sw ∈ sources, ∃ r ∈ sw.1, resultKey r = key) :
    ∃ res ∈ reciprocalRankFusion sources k,
      resultKey res = key ∧ res.score = fusedScore k key sources := by
  have hpres : mergedScore key
      (sources.foldl (fun m sw => rrfFold k sw.2 0 m sw.1) []) ≠ none := by
    rw [sourcesFold_keys]
    exact Or.inr hocc
  obtain ⟨e, he, hek, hes⟩ := mergedScore_entry key _ hpres
  have hinv : resultKey e.2.1 = e.1 :=
    sourcesFold_inv k sources [] (by simp) e he
  have hscore : e.2.2 = fusedScore k key sources := by
    rw [hes, sourcesFold_score]
    simp [mergedScore]
  refine ⟨{ e.2.1 with score := e.2.2 }, ?_, ?_, ?_⟩
  · unfold reciprocalRankFusion
    apply List.mem_map.mpr
    refine ⟨e, ?_, rfl⟩
    rw [List.Perm.mem_iff (List.mergeSort_perm _ _)]
    exact he
  · rw [resultKey_set_score, hinv, hek]
  · exact hscore

theorem sourceScore_eq_occursAt (k : ℕ) (w : ℚ) (key : String) :
    ∀ (rs : List SearchResult) (rank : ℕ),
      sourceScore k w key rank rs
        = ((occursAt key rank rs).map (fun r1 : ℕ => w / ((k : ℚ) + (r1 : ℚ) + 1))).sum := by
  intro rs
  induction rs with
  | nil => intro rank; simp [sourceScore, occursAt]
  | cons r rest ih =>
    intro rank
    rw [sourceScore, occursAt]
    by_cases h : resultKey r = key
    · rw [if_pos h, if_pos h, List.map_cons, List.sum_cons, ih (rank + 1)]
    · rw [if_neg h, if_neg h, ih (rank + 1)]
      simp

theorem occursAt_exists (key : String) :
    ∀ (rs : List SearchResult) (rank : ℕ), occursAt key rank rs ≠ [] →
      ∃ r ∈ rs, resultKey r = key := by
  intro rs
  induction rs with
  | nil => intro rank h; simp [occursAt] at h
  | cons r rest ih =>
    intro rank h
    by_cases hk : resultKey r = key
    · exact ⟨r, List.mem_cons_self r rest, hk⟩
    · rw [occursAt, if_neg hk] at h
      obtain ⟨x, hx, hxk⟩ := ih (rank + 1) h
      exact ⟨x, List.mem_cons_of_mem r hx, hxk⟩

theorem fusedScore_rest_zero (k : ℕ) (key : String) :
    ∀ (rest : List (List SearchResult × ℚ)),
      (∀ sw ∈ rest, occursAt key 0 sw.1 = []) → fusedScore k key rest = 0 := by
  intro rest
  induction rest with
  | nil => intro _; rfl
  | cons sw rest2 ih =>
    intro h
    rw [fusedScore, sourceScore_eq_occursAt, h sw (List.mem_cons_self sw rest2)]
    rw [ih (fun sw2 hsw2 => h sw2 (List.mem_cons_of_mem sw hsw2))]
    simp

/-- C3: with the default k = 60, a result whose key appears at 0-based rank r1
in a source of weight w1 and at rank r2 in a source of weight w2, and at no
other rank in any source, receives fused score w1/(60+r1+1) + w2/(60+r2+1). -/
theorem reciprocalRankFusion_two_source_score (L1 L2 : List SearchResult)
    (rest : List (List SearchResult × ℚ)) (w1 w2 : ℚ) (key : String) (r1 r2 : ℕ)
    (h1 : occursAt key 0 L1 = [r1]) (h2 : occursAt key 0 L2 = [r2])
    (hrest : ∀ sw ∈ rest, occursAt key 0 sw.1 = []) :
    ∃ res ∈ reciprocalRankFusion ((L1, w1) :: (L2, w2) :: rest) 60,
      resultKey res = key ∧
      res.score = w1 / (60 + (r1 : ℚ) + 1) + w2 / (60 + (r2 : ℚ) + 1) := by
  have hocc : ∃ sw ∈ (L1, w1) :: (L2, w2) :: rest, ∃ r ∈ sw.1, resultKey r = key := by
    obtain ⟨r, hr, hrk⟩ := occursAt_exists key L1 0 (by rw [h1]; simp)
    exact ⟨(L1, w1), List.mem_cons_self _ _, r, hr, hrk⟩
  obtain ⟨res, hres, hkey, hscore⟩ :=
    reciprocalRankFusion_key_score ((L1, w1) :: (L2, w2) :: rest) 60 key hocc
  refine ⟨res, hres, hkey, ?_⟩
  rw [hscore, fusedScore, fusedScore]
  rw [fusedScore_rest_zero 60 key rest hrest]
  rw [sourceScore_eq_occursAt, sourceScore_eq_occursAt, h1, h2]
  simp only [List.map_cons, List.map_nil, List.sum_cons, List.sum_nil, add_zero]
  push_cast
  ring

/-- Witness for C3: the hybrid scenario with a document at rank 0 in a source
of weight 1/2, rank 2 in a source of weight 3/10, and absent from a third
source of weight 1/5. -/
theorem reciprocalRankFusion_two_source_score_witness :
    occursAt "a.ts:1-2" 0
      [⟨"a.ts", 1, 2, "dd", 0, MatchType.vector, [], "typescript"⟩] = [0] ∧
    occursAt "a.ts:1-2" 0
      [⟨"x.ts", 1, 2, "x", 0, MatchType.keyword, [], "typescript"⟩,
       ⟨"y.ts", 3, 4, "y", 0, MatchType.keyword, [], "typescript"⟩,
       ⟨"a.ts", 1, 2, "dd", 0, MatchType.keyword, [], "typescript"⟩] = [2] ∧
    (∀ sw ∈ ([([], 1 / 5)] : List (List SearchResult × ℚ)),
      occursAt "a.ts:1-2" 0 sw.1 = []) ∧
    ∃ res ∈ reciprocalRankFusion
        ((([(⟨"a.ts", 1, 2, "dd", 0, MatchType.vector, [], "typescript"⟩ : SearchResult)], 1 / 2) ::
          ([⟨"x.ts", 1, 2, "x", 0, MatchType.keyword, [], "typescript"⟩,
            ⟨"y.ts", 3, 4, "y", 0, MatchType.keyword, [], "typescript"⟩,
            ⟨"a.ts", 1, 2, "dd", 0, MatchType.keyword, [], "typescript"⟩], 3 / 10) ::
          [([], 1 / 5)]) : List (List SearchResult × ℚ)) 60,
      resultKey res = "a.ts:1-2" ∧
      res.score = 1 / 2 / (60 + ((0 : ℕ) : ℚ) + 1) + 3 / 10 / (60 + ((2 : ℕ) : ℚ) + 1) := by
  refine ⟨rfl, rfl, ?_, ?_⟩
  · intro sw hsw
    rw [List.mem_singleton] at hsw
    subst hsw
    rfl
  · exact reciprocalRankFusion_two_source_score _ _ _ _ _ _ 0 2 rfl rfl
      (by intro sw hsw; rw [List.mem_singleton] at hsw; subst hsw; rfl)

/-! ## Theorems: chunk coverage (C2) and the soft token budget (C10) -/

theorem string_mk_data (s : String) : String.mk s.data = s := rfl

theorem splitLinesList_ne_nil : ∀ (cs : List Char), splitLinesList cs ≠ [] := by
  intro cs
  induction cs with
  | nil => simp [splitLinesList]
  | cons c cs ih =>
    rw [splitLinesList]
    by_cases h : c = '\n'
    · simp [h]
    · rw [if_neg h]
      rcases hs : splitLinesList cs with _ | ⟨l, ls⟩
      · simp
      · simp

theorem splitLinesList_no_newline :
    ∀ (cs : List Char), ∀ l ∈ splitLinesList cs, '\n' ∉ l := by
  intro cs
  induction cs with
  | nil =>
    intro l hl
    rw [splitLinesList] at hl
    rcases List.mem_singleton.mp hl with h
    subst h
    simp
  | cons c cs ih =>
    intro l hl
    rw [splitLinesList] at hl
    by_cases h : c = '\n'
    · rw [if_pos h] at hl
      rcases List.mem_cons.mp hl with h2 | h2
      · subst h2; simp
      · exact ih l h2
    · rw [if_neg h] at hl
      rcases hs : splitLinesList cs with _ | ⟨l0, ls⟩
      · exact absurd hs (splitLinesList_ne_nil cs)
      · rw [hs] at hl
        rcases List.mem_cons.mp hl with h2 | h2
        · subst h2
          intro hmem
          rcases List.mem_cons.mp hmem with h3 | h3
          · exact h h3.symm
          · exact ih l0 (hs ▸ List.mem_cons_self l0 ls) h3
        · exact ih l (hs ▸ List.mem_cons_of_mem l0 h2)

theorem splitLinesList_append_newline :
    ∀ (u v : List Char), '\n' ∉ u →
      splitLinesList (u ++ '\n' :: v) = u :: splitLinesList v := by
  intro u
  induction u with
  | nil => intro v _; simp [splitLinesList]
  | cons c u ih =>
    intro v hn
    have hc : c ≠ '\n' := fun h => hn (h ▸ List.mem_cons_self c u)
    have hu : '\n' ∉ u := fun h => hn (List.mem_cons_of_mem c h)
    rw [List.cons_append, splitLinesList, if_neg hc, ih v hu]

theorem splitLinesList_no_newline_id :
    ∀ (u : List Char), '\n' ∉ u → splitLinesList u = [u] := by
  intro u
  induction u with
  | nil => intro _; rfl
  | cons c u ih =>
    intro hn
    have hc : c ≠ '\n' := fun h => hn (h ▸ List.mem_cons_self c u)
    have hu : '\n' ∉ u := fun h => hn (List.mem_cons_of_mem c h)
    rw [splitLinesList, if_neg hc, ih hu]

theorem splitLines_joinLines :
    ∀ (ls : List String), ls ≠ [] → (∀ l ∈ ls, '\n' ∉ l.data) →
      splitLines (joinLines ls) = ls := by
  intro ls
  induction ls with
  | nil => intro h _; exact absurd rfl h
  | cons l rest ih =>
    intro _ hnl
    rcases rest with _ | ⟨l2, rest2⟩
    · rw [joinLines]
      unfold splitLines
      rw [splitLinesList_no_newline_id l.data (hnl l (List.mem_cons_self l []))]
      simp [string_mk_data]
    · rw [joinLines]
      unfold splitLines
      have hdata : (l ++ "\n" ++ joinLines (l2 :: rest2)).data
          = l.data ++ '\n' :: (joinLines (l2 :: rest2)).data := by
        show (l.data ++ "\n".data) ++ (joinLines (l2 :: rest2)).data = _
        simp
      rw [hdata, splitLinesList_append_newline l.data _
        (hnl l (List.mem_cons_self l (l2 :: rest2)))]
      rw [List.map_cons, string_mk_data]
      have := ih (by simp) (fun x hx => hnl x (List.mem_cons_of_mem l hx))
      unfold splitLines at this
      rw [this]

theorem hasContent_joinLines :
    ∀ (ls : List String), hasContent (joinLines ls) = true ↔
      ∃ l ∈ ls, hasContent l = true := by
  intro ls
  induction ls with
  | nil => simp [joinLines, hasContent]
  | cons l rest ih =>
    rcases rest with _ | ⟨l2, rest2⟩
    · simp [joinLines]
    · rw [joinLines]
      have hdata : (l ++ "\n" ++ joinLines (l2 :: rest2)).data
          = l.data ++ '\n' :: (joinLines (l2 :: rest2)).data := by
        show (l.data ++ "\n".data) ++ (joinLines (l2 :: rest2)).data = _
        simp
      unfold hasContent
      rw [hdata]
      rw [List.any_append, List.any_cons]
      unfold hasContent at ih
      constructor
      · intro h
        rcases Bool.or_eq_true_iff.mp h with h2 | h2
        · obtain ⟨x, hx, hxc⟩ := List.any_eq_true.mp h2
          exact ⟨l, List.mem_cons_self _ _, List.any_eq_true.mpr ⟨x, hx, hxc⟩⟩
        · rcases Bool.or_eq_true_iff.mp h2 with h3 | h3
          · simp at h3
          · obtain ⟨x, hx, hxc⟩ := ih.mp h3
            exact ⟨x, List.mem_cons_of_mem l hx, hxc⟩
      · intro h
        obtain ⟨x, hx, hxc⟩ := h
        rcases List.mem_cons.mp hx with h2 | h2
        · subst h2
          exact Bool.or_eq_true_iff.mpr (Or.inl hxc)
        · refine Bool.or_eq_true_iff.mpr (Or.inr (Bool.or_eq_true_iff.mpr (Or.inr ?_)))
          exact ih.mpr ⟨x, h2, hxc⟩

theorem fillMore_le (mt : ℕ) : ∀ (rest : List String) (cur : String),
    (fillMore mt cur rest).2 ≤ rest.length := by
  intro rest
  induction rest with
  | nil => intro cur; simp [fillMore]
  | cons l rest ih =>
    intro cur
    show (if mt < estimateTokens (if cur = "" then l else cur ++ "\n" ++ l)
        then ((cur, 0) : String × ℕ)
        else ((fillMore mt (if cur = "" then l else cur ++ "\n" ++ l) rest).1,
          (fillMore mt (if cur = "" then l else cur ++ "\n" ++ l) rest).2 + 1)).2
      ≤ (l :: rest).length
    set next := (if cur = "" then l else cur ++ "\n" ++ l) with hnext
    by_cases h : mt < estimateTokens next
    · rw [if_pos h]
      simp
    · rw [if_neg h]
      simpa using Nat.succ_le_succ (ih next)

theorem sliceChunks_cons (mt : ℕ) (fp : String) (sn : List String) (b ci st : ℕ)
    (l : String) (rest : List String) :
    sliceChunks mt fp sn b ci st (l :: rest) =
      { chunkIndex := ci,
        content := buildChunkContent fp (fillMore mt l rest).1 (b + st)
          (b + st + (fillMore mt l rest).2) sn,
        startLine := b + st,
        endLine := b + st + (fillMore mt l rest).2,
        containedSymbolNames := sn,
        tokenCount := estimateTokens (buildChunkContent fp (fillMore mt l rest).1 (b + st)
          (b + st + (fillMore mt l rest).2) sn) } ::
      sliceChunks mt fp sn b (ci + 1) (st + ((fillMore mt l rest).2 + 1))
        (rest.drop (fillMore mt l rest).2) := by
  have h : b + st + ((fillMore mt l rest).2 + 1) - 1 = b + st + (fillMore mt l rest).2 := by
    omega
  rw [sliceChunks, h]

theorem sliceChunks_cover (mt : ℕ) (fp : String) (sn : List String) (b : ℕ) :
    ∀ (N : ℕ) (ls : List String), ls.length ≤ N → ∀ (ci st j : ℕ), j < ls.length →
      ∃ c ∈ sliceChunks mt fp sn b ci st ls,
        c.startLine ≤ b + st + j ∧ b + st + j ≤ c.endLine := by
  intro N
  induction N with
  | zero =>
    intro ls hlen ci st j hj
    omega
  | succ N ih =>
    intro ls hlen ci st j hj
    rcases ls with _ | ⟨l, rest⟩
    · simp at hj
    · rw [sliceChunks_cons]
      by_cases hcase : j ≤ (fillMore mt l rest).2
      · refine ⟨_, List.mem_cons_self _ _, ?_, ?_⟩
        · show b + st ≤ b + st + j; omega
        · show b + st + j ≤ b + st + (fillMore mt l rest).2; omega
      · have hfm := fillMore_le mt rest l
        have hdroplen : (rest.drop (fillMore mt l rest).2).length
            = rest.length - (fillMore mt l rest).2 := List.length_drop _ _
        have hlen2 : (rest.drop (fillMore mt l rest).2).length ≤ N := by
          simp only [List.length_cons] at hlen
          omega
        have hj2 : j - ((fillMore mt l rest).2 + 1)
            < (rest.drop (fillMore mt l rest).2).length := by
          simp only [List.length_cons] at hj
          omega
        obtain ⟨c, hc, hc1, hc2⟩ := ih (rest.drop (fillMore mt l rest).2) hlen2
          (ci + 1) (st + ((fillMore mt l rest).2 + 1))
          (j - ((fillMore mt l rest).2 + 1)) hj2
        refine ⟨c, List.mem_cons_of_mem _ hc, ?_, ?_⟩
        · omega
        · omega

theorem sliceChunks_index (mt : ℕ) (fp : String) (sn : List String) (b : ℕ) :
    ∀ (N : ℕ) (ls : List String), ls.length ≤ N → ∀ (ci st : ℕ),
      (∀ c ∈ sliceChunks mt fp sn b ci st ls,
        ci ≤ c.chunkIndex ∧ c.chunkIndex < ci + (sliceChunks mt fp sn b ci st ls).length) ∧
      (sliceChunks mt fp sn b ci st ls).Pairwise (fun a c => a.chunkIndex < c.chunkIndex) := by
  intro N
  induction N with
  | zero =>
    intro ls hlen ci st
    have : ls = [] := List.length_eq_zero.mp (Nat.le_zero.mp hlen)
    subst this
    constructor
    · intro c hc; simp [sliceChunks] at hc
    · simp [sliceChunks]
  | succ N ih =>
    intro ls hlen ci st
    rcases ls with _ | ⟨l, rest⟩
    · constructor
      · intro c hc; simp [sliceChunks] at hc
      · simp [sliceChunks]
    · rw [sliceChunks_cons]
      have hfm := fillMore_le mt rest l
      have hlen2 : (rest.drop (fillMore mt l rest).2).length ≤ N := by
        rw [List.length_drop]
        simp only [List.length_cons] at hlen
        omega
      obtain ⟨ihb, ihp⟩ := ih (rest.drop (fillMore mt l rest).2) hlen2
        (ci + 1) (st + ((fillMore mt l rest).2 + 1))
      constructor
      · intro c hc
        rcases List.mem_cons.mp hc with h | h
        · subst h
          simp only [List.length_cons]
          constructor
          · exact le_refl ci
          · omega
        · obtain ⟨h1, h2⟩ := ihb c h
          simp only [List.length_cons]
          omega
      · refine List.pairwise_cons.mpr ⟨?_, ihp⟩
        intro c hc
        obtain ⟨h1, _⟩ := ihb c hc
        show ci < c.chunkIndex
        omega

theorem getD_mem_sliceList (lines : List String) (a b j : ℕ)
    (h1 : a ≤ j) (h2 : j < b) (h3 : j < lines.length) :
    lines.getD j "" ∈ sliceList lines a b := by
  have htl : j - a < ((lines.drop a).take (b - a)).length := by
    rw [List.length_take, List.length_drop]
    omega
  have hval : lines.getD j "" = ((lines.drop a).take (b - a))[j - a] := by
    rw [List.getD_eq_getElem lines "" h3, List.getElem_take (lines.drop a),
      List.getElem_drop lines]
    congr 1
    omega
  rw [hval]
  exact List.getElem_mem htl

theorem regionChunks_cover (fp : String) (mt : ℕ) (lines : List String)
    (hnl : ∀ l ∈ lines, '\n' ∉ l.data) (reg : ChunkRegion)
    (hreg : regionWithin lines reg) (ci : ℕ) :
    ∀ i, reg.startLine ≤ i → i ≤ reg.endLine →
      ∃ c ∈ regionChunks fp mt reg ci, c.startLine ≤ i ∧ i ≤ c.endLine := by
  intro i hi1 hi2
  obtain ⟨h1, h2, h3, h4⟩ := hreg
  unfold regionChunks
  split_ifs with hfit
  · exact ⟨_, List.mem_singleton.mpr rfl, hi1, hi2⟩
  · unfold splitRegion
    have hslice_len : (sliceList lines (reg.startLine - 1) reg.endLine).length
        = reg.endLine - reg.startLine + 1 := by
      unfold sliceList
      rw [List.length_take, List.length_drop]
      omega
    have hslice_ne : sliceList lines (reg.startLine - 1) reg.endLine ≠ [] := by
      intro hmt
      rw [hmt] at hslice_len
      simp at hslice_len
    have hsub : ∀ l ∈ sliceList lines (reg.startLine - 1) reg.endLine, '\n' ∉ l.data := by
      intro l hl
      exact hnl l (List.mem_of_mem_drop (List.mem_of_mem_take hl))
    have hsplit : splitLines reg.text = sliceList lines (reg.startLine - 1) reg.endLine := by
      rw [h4]
      exact splitLines_joinLines _ hslice_ne hsub
    rw [hsplit]
    obtain ⟨c, hc, hc1, hc2⟩ := sliceChunks_cover mt fp reg.symbolNames reg.startLine
      (sliceList lines (reg.startLine - 1) reg.endLine).length
      (sliceList lines (reg.startLine - 1) reg.endLine) le_rfl ci 0
      (i - reg.startLine) (by omega)
    exact ⟨c, hc, by omega, by omega⟩

theorem regionChunks_index (fp : String) (mt : ℕ) (reg : ChunkRegion) (ci : ℕ) :
    (∀ c ∈ regionChunks fp mt reg ci,
      ci ≤ c.chunkIndex ∧ c.chunkIndex < ci + (regionChunks fp mt reg ci).length) ∧
    (regionChunks fp mt reg ci).Pairwise (fun a c => a.chunkIndex < c.chunkIndex) := by
  unfold regionChunks
  split_ifs with hfit
  · constructor
    · intro c hc
      rcases List.mem_singleton.mp hc with h
      subst h
      simp
    · simp
  · unfold splitRegion
    exact sliceChunks_index mt fp reg.symbolNames reg.startLine
      (splitLines reg.text).length (splitLines reg.text) le_rfl ci 0

theorem regionsToChunks_lb (fp : String) (mt : ℕ) :
    ∀ (regs : List ChunkRegion) (ci : ℕ),
      ∀ c ∈ regionsToChunks fp mt regs ci, ci ≤ c.chunkIndex := by
  intro regs
  induction regs with
  | nil => intro ci c hc; simp [regionsToChunks] at hc
  | cons reg rest ih =>
    intro ci c hc
    rw [regionsToChunks] at hc
    rcases List.mem_append.mp hc with h | h
    · exact ((regionChunks_index fp mt reg ci).1 c h).1
    · have := ih (ci + (regionChunks fp mt reg ci).length) c h
      omega

theorem regionsToChunks_pairwise (fp : String) (mt : ℕ) :
    ∀ (regs : List ChunkRegion) (ci : ℕ),
      (regionsToChunks fp mt regs ci).Pairwise (fun a c => a.chunkIndex < c.chunkIndex) := by
  intro regs
  induction regs with
  | nil => intro ci; simp [regionsToChunks]
  | cons reg rest ih =>
    intro ci
    rw [regionsToChunks]
    rw [List.pairwise_append]
    refine ⟨(regionChunks_index fp mt reg ci).2, ih _, ?_⟩
    intro a ha c hc
    have h1 := ((regionChunks_index fp mt reg ci).1 a ha).2
    have h2 := regionsToChunks_lb fp mt rest (ci + (regionChunks fp mt reg ci).length) c hc
    omega

theorem regionsToChunks_cover (fp : String) (mt : ℕ) (lines : List String)
    (hnl : ∀ l ∈ lines, '\n' ∉ l.data) :
    ∀ (regs : List ChunkRegion) (ci : ℕ),
      (∀ reg ∈ regs, regionWithin lines reg) →
      ∀ reg ∈ regs, ∀ i, reg.startLine ≤ i → i ≤ reg.endLine →
        ∃ c ∈ regionsToChunks fp mt regs ci, c.startLine ≤ i ∧ i ≤ c.endLine := by
  intro regs
  induction regs with
  | nil => intro ci _ reg hreg; simp at hreg
  | cons reg0 rest ih =>
    intro ci hwf reg hreg i hi1 hi2
    rw [regionsToChunks]
    rcases List.mem_cons.mp hreg with h | h
    · subst h
      obtain ⟨c, hc, hc1, hc2⟩ := regionChunks_cover fp mt lines hnl reg
        (hwf reg (List.mem_cons_self _ _)) ci i hi1 hi2
      exact ⟨c, List.mem_append_left _ hc, hc1, hc2⟩
    · obtain ⟨c, hc, hc1, hc2⟩ := ih (ci + (regionChunks fp mt reg0 ci).length)
        (fun r hr => hwf r (List.mem_cons_of_mem _ hr)) reg h i hi1 hi2
      exact ⟨c, List.mem_append_right _ hc, hc1, hc2⟩

theorem regionsLoop_cons_noskip (lines : List String) (symbols : List ExtractedSymbol)
    (sym : ExtractedSymbol) (rest : List ExtractedSymbol) (c : ℕ)
    (h : ¬ sym.startLine < c) :
    regionsLoop lines symbols (sym :: rest) c =
      ((if c < sym.startLine then
          (if hasContent (joinLines (sliceList lines (c - 1) (sym.startLine - 1))) then
            [{ startLine := c, endLine := sym.startLine - 1,
               text := joinLines (sliceList lines (c - 1) (sym.startLine - 1)),
               symbolNames := [], isSymbol := false }]
          else [])
        else []) ++
        { startLine := sym.startLine, endLine := sym.endLine,
          text := joinLines (sliceList lines (sym.startLine - 1) sym.endLine),
          symbolNames := sym.name ::
            (symbols.filter (fun s => s.parentName = some sym.name)).map (fun s => s.name),
          isSymbol := true } ::
        (regionsLoop lines symbols rest (sym.endLine + 1)).1,
       (regionsLoop lines symbols rest (sym.endLine + 1)).2) := by
  rw [regionsLoop, if_neg h]

theorem regionsLoop_spec (lines : List String) (symbols : List ExtractedSymbol) :
    ∀ (syms : List ExtractedSymbol) (c : ℕ), 1 ≤ c →
      (∀ s ∈ syms, 1 ≤ s.startLine ∧ s.startLine ≤ s.endLine ∧ s.endLine ≤ lines.length) →
      c ≤ (regionsLoop lines symbols syms c).2 ∧
      (∀ reg ∈ (regionsLoop lines symbols syms c).1, regionWithin lines reg) ∧
      (∀ i, c ≤ i → i < (regionsLoop lines symbols syms c).2 →
        hasContent (lines.getD (i - 1) "") = true →
        ∃ reg ∈ (regionsLoop lines symbols syms c).1,
          reg.startLine ≤ i ∧ i ≤ reg.endLine) := by
  intro syms
  induction syms with
  | nil =>
    intro c hc hval
    refine ⟨le_refl c, ?_, ?_⟩
    · intro reg hreg
      simp [regionsLoop] at hreg
    · intro i hi1 hi2
      simp only [regionsLoop] at hi2
      omega
  | cons sym rest ih =>
    intro c hc hval
    have hvrest : ∀ s ∈ rest, 1 ≤ s.startLine ∧ s.startLine ≤ s.endLine ∧
        s.endLine ≤ lines.length := fun s hs => hval s (List.mem_cons_of_mem _ hs)
    obtain ⟨hv1, hv2, hv3⟩ := hval sym (List.mem_cons_self _ _)
    by_cases hskip : sym.startLine < c
    · rw [regionsLoop, if_pos hskip]
      exact ih c hc hvrest
    · push_neg at hskip
      rw [regionsLoop_cons_noskip lines symbols sym rest c (by omega)]
      obtain ⟨ihc, ihwf, ihcov⟩ := ih (sym.endLine + 1) (by omega) hvrest
      refine ⟨?_, ?_, ?_⟩
      · show c ≤ (regionsLoop lines symbols rest (sym.endLine + 1)).2
        omega
      · intro reg hreg
        rcases List.mem_append.mp hreg with hg | hs
        · by_cases hlt : c < sym.startLine
          · rw [if_pos hlt] at hg
            by_cases hcont : hasContent (joinLines (sliceList lines (c - 1) (sym.startLine - 1)))
            · rw [if_pos hcont] at hg
              rcases List.mem_singleton.mp hg with h
              subst h
              exact ⟨hc, show c ≤ sym.startLine - 1 by omega,
                show sym.startLine - 1 ≤ lines.length by omega, rfl⟩
            · rw [if_neg hcont] at hg
              simp at hg
          · rw [if_neg hlt] at hg
            simp at hg
        · rcases List.mem_cons.mp hs with h | h
          · subst h
            exact ⟨show 1 ≤ sym.startLine by omega, hv2, hv3, rfl⟩
          · exact ihwf reg h
      · intro i hi1 hi2 hcont
        have hi2r : i < (regionsLoop lines symbols rest (sym.endLine + 1)).2 := hi2
        by_cases hA : i < sym.startLine
        · have hlt : c < sym.startLine := by omega
          have hmem : lines.getD (i - 1) "" ∈
              sliceList lines (c - 1) (sym.startLine - 1) :=
            getD_mem_sliceList lines (c - 1) (sym.startLine - 1) (i - 1)
              (by omega) (by omega) (by omega)
          have hgc : hasContent (joinLines (sliceList lines (c - 1) (sym.startLine - 1)))
              = true :=
            (hasContent_joinLines _).mpr ⟨lines.getD (i - 1) "", hmem, hcont⟩
          refine ⟨⟨c, sym.startLine - 1,
              joinLines (sliceList lines (c - 1) (sym.startLine - 1)), [], false⟩,
            ?_, hi1, show i ≤ sym.startLine - 1 by omega⟩
          apply List.mem_append_left
          rw [if_pos hlt, if_pos hgc]
          exact List.mem_singleton.mpr rfl
        · by_cases hB : i ≤ sym.endLine
          · refine ⟨_, List.mem_append_right _ (List.mem_cons_self _ _), ?_, ?_⟩
            · show sym.startLine ≤ i; omega
            · show i ≤ sym.endLine; omega
          · obtain ⟨reg, hreg, hb1, hb2⟩ := ihcov i (by omega) hi2r hcont
            exact ⟨reg, List.mem_append_right _ (List.mem_cons_of_mem _ hreg), hb1, hb2⟩

theorem getD_mem_drop (lines : List String) (a j : ℕ)
    (h1 : a ≤ j) (h3 : j < lines.length) :
    lines.getD j "" ∈ lines.drop a :=
  List.mem_of_mem_take (getD_mem_sliceList lines a lines.length j h1 h3 h3)

theorem buildRegions_eq (lines : List String) (symbols sorted : List ExtractedSymbol) :
    buildRegions lines symbols sorted =
      (regionsLoop lines symbols sorted 1).1 ++
      (if (regionsLoop lines symbols sorted 1).2 ≤ lines.length then
        (if hasContent (joinLines (lines.drop ((regionsLoop lines symbols sorted 1).2 - 1))) then
          [{ startLine := (regionsLoop lines symbols sorted 1).2, endLine := lines.length,
             text := joinLines (lines.drop ((regionsLoop lines symbols sorted 1).2 - 1)),
             symbolNames := [], isSymbol := false }]
        else [])
      else []) := rfl

theorem buildRegions_spec (lines : List String) (symbols sorted : List ExtractedSymbol)
    (hval : ∀ s ∈ sorted, 1 ≤ s.startLine ∧ s.startLine ≤ s.endLine ∧
      s.endLine ≤ lines.length) :
    (∀ reg ∈ buildRegions lines symbols sorted, regionWithin lines reg) ∧
    (∀ i, 1 ≤ i → i ≤ lines.length → hasContent (lines.getD (i - 1) "") = true →
      ∃ reg ∈ buildRegions lines symbols sorted,
        reg.startLine ≤ i ∧ i ≤ reg.endLine) := by
  obtain ⟨hc2, hwf, hcov⟩ := regionsLoop_spec lines symbols sorted 1 le_rfl hval
  rw [buildRegions_eq]
  have hdrop_eq : joinLines (lines.drop ((regionsLoop lines symbols sorted 1).2 - 1))
      = joinLines (sliceList lines ((regionsLoop lines symbols sorted 1).2 - 1)
          lines.length) := by
    congr 1
    unfold sliceList
    rw [show lines.length - ((regionsLoop lines symbols sorted 1).2 - 1)
        = (lines.drop ((regionsLoop lines symbols sorted 1).2 - 1)).length from
      (List.length_drop _ _).symm, List.take_length]
  constructor
  · intro reg hreg
    rcases List.mem_append.mp hreg with h | h
    · exact hwf reg h
    · split_ifs at h with ht1 ht2
      · rcases List.mem_singleton.mp h with he
        subst he
        exact ⟨show 1 ≤ (regionsLoop lines symbols sorted 1).2 by omega,
          ht1, le_rfl, hdrop_eq⟩
      · simp at h
      · simp at h
  · intro i hi1 hi2 hcont
    by_cases hlt : i < (regionsLoop lines symbols sorted 1).2
    · obtain ⟨reg, hreg, h1, h2⟩ := hcov i hi1 hlt hcont
      exact ⟨reg, List.mem_append_left _ hreg, h1, h2⟩
    · push_neg at hlt
      have ht1 : (regionsLoop lines symbols sorted 1).2 ≤ lines.length :=
        le_trans hlt hi2
      have hmem : lines.getD (i - 1) "" ∈
          lines.drop ((regionsLoop lines symbols sorted 1).2 - 1) :=
        getD_mem_drop lines _ (i - 1) (by omega) (by omega)
      have htc : hasContent
          (joinLines (lines.drop ((regionsLoop lines symbols sorted 1).2 - 1))) = true :=
        (hasContent_joinLines _).mpr ⟨lines.getD (i - 1) "", hmem, hcont⟩
      refine ⟨⟨(regionsLoop lines symbols sorted 1).2, lines.length,
          joinLines (lines.drop ((regionsLoop lines symbols sorted 1).2 - 1)), [], false⟩,
        ?_, hlt, hi2⟩
      apply List.mem_append_right
      rw [if_pos ht1, if_pos htc]
      exact List.mem_singleton.mpr rfl

theorem chunkFile_eq (source filePath : String) (symbols : List ExtractedSymbol)
    (maxTokens : ℕ) :
    chunkFile source filePath symbols maxTokens =
      if (splitLines source).length = 0 then []
      else if estimateTokens source ≤ maxTokens then
        [{ chunkIndex := 0,
           content := buildChunkContent filePath source 1 (splitLines source).length
             (symbols.map (fun s => s.name)),
           startLine := 1, endLine := (splitLines source).length,
           containedSymbolNames := symbols.map (fun s => s.name),
           tokenCount := estimateTokens (buildChunkContent filePath source 1
             (splitLines source).length (symbols.map (fun s => s.name))) }]
      else
        if buildRegions (splitLines source) symbols
            ((symbols.filter (fun s => optStrFalsy s.parentName || s.kind == "class")).mergeSort
              (fun a b => a.startLine ≤ b.startLine)) = [] then
          chunkByLines source filePath maxTokens
        else
          regionsToChunks filePath maxTokens
            (buildRegions (splitLines source) symbols
              ((symbols.filter (fun s => optStrFalsy s.parentName || s.kind == "class")).mergeSort
                (fun a b => a.startLine ≤ b.startLine))) 0 := rfl

/-- C2: when every extracted symbol has a 1-based line range inside the source
and the token budget is positive, the union of the chunk line ranges produced
by chunkFile covers every line of the source that holds a non-whitespace
character, and the chunk indices strictly increase in output order. -/
theorem chunkFile_coverage (source filePath : String) (symbols : List ExtractedSymbol)
    (maxTokens : ℕ)
    (hsym : ∀ s ∈ symbols, 1 ≤ s.startLine ∧ s.startLine ≤ s.endLine ∧
      s.endLine ≤ (splitLines source).length)
    (hpos : 0 < maxTokens) :
    (∀ i, 1 ≤ i → i ≤ (splitLines source).length →
      hasContent ((splitLines source).getD (i - 1) "") = true →
      ∃ c ∈ chunkFile source filePath symbols maxTokens,
        c.startLine ≤ i ∧ i ≤ c.endLine) ∧
    (chunkFile source filePath symbols maxTokens).Pairwise
      (fun a c => a.chunkIndex < c.chunkIndex) := by
  rw [chunkFile_eq]
  have hnl : ∀ l ∈ splitLines source, '\n' ∉ l.data := by
    intro l hl
    obtain ⟨cl, hcl, hmk⟩ := List.mem_map.mp hl
    intro hmem
    apply splitLinesList_no_newline source.data cl hcl
    rw [← hmk] at hmem
    exact hmem
  by_cases h0 : (splitLines source).length = 0
  · rw [if_pos h0]
    constructor
    · intro i hi1 hi2 _
      omega
    · simp
  · rw [if_neg h0]
    by_cases hfit : estimateTokens source ≤ maxTokens
    · rw [if_pos hfit]
      constructor
      · intro i hi1 hi2 _
        exact ⟨_, List.mem_singleton.mpr rfl, hi1, hi2⟩
      · simp
    · rw [if_neg hfit]
      have hvs : ∀ s ∈ ((symbols.filter
          (fun s => optStrFalsy s.parentName || s.kind == "class")).mergeSort
            (fun a b => a.startLine ≤ b.startLine)),
          1 ≤ s.startLine ∧ s.startLine ≤ s.endLine ∧
            s.endLine ≤ (splitLines source).length := by
        intro s hs
        have hmem : s ∈ symbols.filter
            (fun s => optStrFalsy s.parentName || s.kind == "class") :=
          (List.mergeSort_perm _ _).mem_iff.mp hs
        exact hsym s (List.mem_of_mem_filter hmem)
      obtain ⟨hwf, hcov⟩ := buildRegions_spec (splitLines source) symbols _ hvs
      by_cases hre : buildRegions (splitLines source) symbols
          ((symbols.filter (fun s => optStrFalsy s.parentName || s.kind == "class")).mergeSort
            (fun a b => a.startLine ≤ b.startLine)) = []
      · rw [if_pos hre]
        unfold chunkByLines
        constructor
        · intro i hi1 hi2 _
          obtain ⟨c, hc, h1, h2⟩ := sliceChunks_cover maxTokens filePath [] 1
            (splitLines source).length (splitLines source) le_rfl 0 0 (i - 1) (by omega)
          exact ⟨c, hc, by omega, by omega⟩
        · exact (sliceChunks_index maxTokens filePath [] 1
            (splitLines source).length (splitLines source) le_rfl 0 0).2
      · rw [if_neg hre]
        constructor
        · intro i hi1 hi2 hcont
          obtain ⟨reg, hreg, h1, h2⟩ := hcov i hi1 hi2 hcont
          exact regionsToChunks_cover filePath maxTokens (splitLines source) hnl _ 0
            hwf reg hreg i h1 h2
        · exact regionsToChunks_pairwise filePath maxTokens _ 0

/-- Witness for C2 at a concrete two-line source with no symbols and the
default budget. -/
theorem chunkFile_coverage_witness :
    (∀ s ∈ ([] : List ExtractedSymbol), 1 ≤ s.startLine ∧ s.startLine ≤ s.endLine ∧
      s.endLine ≤ (splitLines "ab\ncd").length) ∧ 0 < 512 ∧
    ((∀ i, 1 ≤ i → i ≤ (splitLines "ab\ncd").length →
      hasContent ((splitLines "ab\ncd").getD (i - 1) "") = true →
      ∃ c ∈ chunkFile "ab\ncd" "a.ts" [] 512,
        c.startLine ≤ i ∧ i ≤ c.endLine) ∧
    (chunkFile "ab\ncd" "a.ts" [] 512).Pairwise
      (fun a c => a.chunkIndex < c.chunkIndex)) :=
  ⟨by simp, by norm_num, chunkFile_coverage "ab\ncd" "a.ts" [] 512 (by simp) (by norm_num)⟩

/-- C10: the per-chunk token budget is soft, not hard: chunkFile can emit a
chunk whose tokenCount exceeds maxTokens, because the whole-file fast path
compares the raw source against the budget before the context header is
prepended. -/
theorem chunkFile_token_budget_not_hard :
    ∃ source filePath symbols maxTokens,
      ∃ c ∈ chunkFile source filePath symbols maxTokens,
        maxTokens < c.tokenCount := by
  refine ⟨"abc", "p", [], 1, ?_⟩
  decide
